import Mathlib

/-!
Verification of the plugin.ini round-trip core of `plugin_editor.py`
(color codec `ini_to_tk` / `tk_to_ini`, parser `parse_ini`, filename
inference `apply_filename_rules`, and serializer `rebuild_ini`).

Modelling conventions.  Python strings are embedded as `List Char`
(`Str`); the Python string methods used by the source (`strip`,
`startswith`, `endswith`, `splitlines`, `split("=", 1)`, `lower`,
`upper`, `replace("#", "")`, f-strings) are given as explicit recursive
functions on `Str`.  `splitlines` is modelled for LF-separated text (the
format is line oriented) and ASCII case mapping is used, matching the
ASCII-only tokens of the file format.  Python `dict` (insertion ordered,
unique keys) is an association list, and Python truthiness of an
optional string field (`None` and `""` are falsy) is `optTruthy`.
-/

/-- Python strings are modelled as lists of characters. -/
abbrev Str := List Char

/-- ASCII whitespace recognized by the model of `str.strip()`. -/
def pySpace (c : Char) : Bool :=
  c == ' ' || c == '\t' || c == '\n' || c == '\r' || c == '\x0b' || c == '\x0c'

/-- Model of `s.startswith(p)`. -/
def pyStartsWith : Str → Str → Bool
  | _, [] => true
  | [], _ :: _ => false
  | c :: s, p :: ps => c == p && pyStartsWith s ps

/-- Model of `s.endswith(p)`. -/
def pyEndsWith (s p : Str) : Bool :=
  pyStartsWith s.reverse p.reverse

/-- Model of `s.strip()` (ASCII whitespace). -/
def pyStrip (s : Str) : Str :=
  ((s.dropWhile pySpace).reverse.dropWhile pySpace).reverse

/-- Split at the first occurrence of `sep`: the two components of
Python's `s.split(sep, 1)` when `sep` occurs in `s`. -/
def splitFirst (sep : Char) : Str → Str × Str
  | [] => ([], [])
  | c :: rest =>
    if c = sep then ([], rest)
    else
      let p := splitFirst sep rest
      (c :: p.1, p.2)

/-- ASCII lower-casing of one character (model of `str.lower()`). -/
def pyLowerChar (c : Char) : Char :=
  match c with
  | 'A' => 'a' | 'B' => 'b' | 'C' => 'c' | 'D' => 'd' | 'E' => 'e'
  | 'F' => 'f' | 'G' => 'g' | 'H' => 'h' | 'I' => 'i' | 'J' => 'j'
  | 'K' => 'k' | 'L' => 'l' | 'M' => 'm' | 'N' => 'n' | 'O' => 'o'
  | 'P' => 'p' | 'Q' => 'q' | 'R' => 'r' | 'S' => 's' | 'T' => 't'
  | 'U' => 'u' | 'V' => 'v' | 'W' => 'w' | 'X' => 'x' | 'Y' => 'y'
  | 'Z' => 'z' | c => c

/-- ASCII upper-casing of one character (model of `str.upper()`). -/
def pyUpperChar (c : Char) : Char :=
  match c with
  | 'a' => 'A' | 'b' => 'B' | 'c' => 'C' | 'd' => 'D' | 'e' => 'E'
  | 'f' => 'F' | 'g' => 'G' | 'h' => 'H' | 'i' => 'I' | 'j' => 'J'
  | 'k' => 'K' | 'l' => 'L' | 'm' => 'M' | 'n' => 'N' | 'o' => 'O'
  | 'p' => 'P' | 'q' => 'Q' | 'r' => 'R' | 's' => 'S' | 't' => 'T'
  | 'u' => 'U' | 'v' => 'V' | 'w' => 'W' | 'x' => 'X' | 'y' => 'Y'
  | 'z' => 'Z' | c => c

/-- Model of `s.lower()`. -/
def pyLower (s : Str) : Str := s.map pyLowerChar

/-- Model of `s.upper()`. -/
def pyUpper (s : Str) : Str := s.map pyUpperChar

/-!  ## Color conversion helpers (`ini_to_tk`, `tk_to_ini`) -/

/-- `ini_to_tk(color)`: convert `0xAARRGGBB` to `#rrggbb`;
any value that is empty, lacks the `0x` prefix, or is not exactly
10 characters long yields the white fallback `#FFFFFF`. -/
def ini_to_tk (color : Str) : Str :=
  if color = [] ∨ ¬ pyStartsWith color "0x".data = true ∨ color.length ≠ 10 then
    "#FFFFFF".data
  else
    '#' :: pyLower (color.drop 4)

/-- `tk_to_ini(hexcolor, old_ini_color)`: convert `#RRGGBB` to
`0xAARRGGBB`, keeping the old alpha byte when `old_ini_color` is
non-empty and starts with `0x` (the source performs no length check
here), and `FF` otherwise.  An empty `hexcolor` returns
`old_ini_color` unchanged. -/
def tk_to_ini (hexcolor old_ini_color : Str) : Str :=
  if hexcolor = [] then old_ini_color
  else
    let h := hexcolor.filter (fun c => !(c == '#'))
    let alpha :=
      if old_ini_color ≠ [] ∧ pyStartsWith old_ini_color "0x".data = true then
        (old_ini_color.drop 2).take 2
      else "FF".data
    "0x".data ++ alpha ++ pyUpper h

/-- One hexadecimal digit, either case. -/
def hexDigitChar (c : Char) : Bool :=
  (48 ≤ c.toNat && c.toNat ≤ 57) ||
  (97 ≤ c.toNat && c.toNat ≤ 102) ||
  (65 ≤ c.toNat && c.toNat ≤ 70)

/-- Well-formed stored color per the file-format contract of the spec:
`0x` followed by 8 hex digits, case-insensitive, total length 10.
This definition follows the spec's words (it is the comparison point for
the codec claims); the code itself checks only the prefix and length. -/
def specValidStoredColor (c : Str) : Bool :=
  c.length == 10 && pyStartsWith c "0x".data && (c.drop 2).all hexDigitChar

/-- The sixteen upper-case hex digits. -/
def upperHexDigits : Str :=
  ['0', '1', '2', '3', '4', '5', '6', '7', '8', '9', 'A', 'B', 'C', 'D', 'E', 'F']

theorem upperHex_lower_upper {c : Char} (h : c ∈ upperHexDigits) :
    pyUpperChar (pyLowerChar c) = c ∧ (pyLowerChar c == '#') = false := by
  simp only [upperHexDigits, List.mem_cons, List.not_mem_nil, or_false] at h
  rcases h with rfl|rfl|rfl|rfl|rfl|rfl|rfl|rfl|rfl|rfl|rfl|rfl|rfl|rfl|rfl|rfl <;>
    exact ⟨rfl, rfl⟩

theorem exists_ten_of_length (l : Str) (h : l.length = 10) :
    ∃ a b c d e f g h' i j, l = [a, b, c, d, e, f, g, h', i, j] := by
  match l, h with
  | [a, b, c, d, e, f, g, h', i, j], _ => exact ⟨_, _, _, _, _, _, _, _, _, _, rfl⟩

/-- Claim C3 (counterexample): the stored color `0xFFaabbcc` is valid per
the file-format contract (hex digits are case-insensitive on read), yet
`tk_to_ini (ini_to_tk c) c` returns `0xFFAABBCC ≠ c`: the round trip is
not the identity on lower-case RGB digits. -/
theorem c3_roundtrip_counterexample :
    specValidStoredColor "0xFFaabbcc".data = true ∧
    tk_to_ini (ini_to_tk "0xFFaabbcc".data) "0xFFaabbcc".data = "0xFFAABBCC".data ∧
    "0xFFAABBCC".data ≠ "0xFFaabbcc".data := by
  refine ⟨by decide, by decide, by decide⟩

/-- Claim C3 (amended): for every valid stored color whose eight data
digits are written in upper case (digits `0`-`9`, `A`-`F`),
`tk_to_ini (ini_to_tk c) c = c`: the alpha byte is taken over verbatim
from `c` and the RGB bytes survive the lower-case/upper-case round
trip. -/
theorem c3_roundtrip_upper (c : Str)
    (hv : specValidStoredColor c = true)
    (hu : ∀ ch ∈ c.drop 4, ch ∈ upperHexDigits) :
    tk_to_ini (ini_to_tk c) c = c := by
  have hlen : c.length = 10 := by
    unfold specValidStoredColor at hv
    simp only [Bool.and_eq_true, beq_iff_eq] at hv
    exact hv.1.1
  obtain ⟨c0, c1, c2, c3, c4, c5, c6, c7, c8, c9, rfl⟩ := exists_ten_of_length c hlen
  have hpre : c0 = '0' ∧ c1 = 'x' := by
    unfold specValidStoredColor at hv
    simp only [Bool.and_eq_true, beq_iff_eq] at hv
    have h2 := hv.1.2
    simp only [String.data, pyStartsWith, Bool.and_eq_true, beq_iff_eq] at h2
    exact ⟨h2.1, h2.2.1⟩
  obtain ⟨rfl, rfl⟩ := hpre
  have e4 := upperHex_lower_upper (hu c4 (by simp))
  have e5 := upperHex_lower_upper (hu c5 (by simp))
  have e6 := upperHex_lower_upper (hu c6 (by simp))
  have e7 := upperHex_lower_upper (hu c7 (by simp))
  have e8 := upperHex_lower_upper (hu c8 (by simp))
  have e9 := upperHex_lower_upper (hu c9 (by simp))
  have hini : ini_to_tk ['0', 'x', c2, c3, c4, c5, c6, c7, c8, c9] =
      '#' :: [pyLowerChar c4, pyLowerChar c5, pyLowerChar c6,
              pyLowerChar c7, pyLowerChar c8, pyLowerChar c9] := by
    rw [ini_to_tk, if_neg]
    · rfl
    · simp [pyStartsWith]
  rw [hini, tk_to_ini, if_neg (by simp)]
  show "0x".data ++
      (if ('0' :: 'x' :: [c2, c3, c4, c5, c6, c7, c8, c9] ≠ [] ∧
            pyStartsWith ('0' :: 'x' :: [c2, c3, c4, c5, c6, c7, c8, c9]) "0x".data = true)
        then (('0' :: 'x' :: [c2, c3, c4, c5, c6, c7, c8, c9]).drop 2).take 2
        else "FF".data) ++
      pyUpper (('#' :: [pyLowerChar c4, pyLowerChar c5, pyLowerChar c6,
        pyLowerChar c7, pyLowerChar c8, pyLowerChar c9]).filter (fun c => !(c == '#'))) =
      '0' :: 'x' :: [c2, c3, c4, c5, c6, c7, c8, c9]
  rw [if_pos ⟨by simp, by simp [pyStartsWith]⟩]
  simp only [List.filter_cons, e4.2, e5.2, e6.2, e7.2, e8.2, e9.2, beq_self_eq_true,
    Bool.not_true, Bool.not_false, if_true, if_false, List.filter_nil, pyUpper, List.map,
    e4.1, e5.1, e6.1, e7.1, e8.1, e9.1]
  rfl

/-- Witness for `c3_roundtrip_upper` at the concrete color `0xAB12CDEF`. -/
theorem c3_roundtrip_upper_witness :
    tk_to_ini (ini_to_tk "0xAB12CDEF".data) "0xAB12CDEF".data = "0xAB12CDEF".data :=
  c3_roundtrip_upper "0xAB12CDEF".data (by decide) (by decide)

/-- Claim C5 (counterexample): `tk_to_ini` copies the alpha byte from a
previous stored value that is *not* well-formed per the 10-character
convention (`0xAB` has length 4): the source checks only the `0x`
prefix, never the length, so the claim's `FF` default is not used. -/
theorem c5_alpha_counterexample :
    ("0xAB".data.length ≠ 10) ∧
    tk_to_ini "#112233".data "0xAB".data = "0xAB112233".data ∧
    "0xAB112233".data ≠ "0xFF112233".data := by
  refine ⟨by decide, by decide, by decide⟩

/-- Claim C5 (amended): for a non-empty display color, the emitted
stored color takes its alpha byte from `previousStored` exactly when
`previousStored` is non-empty and starts with `0x` (no length
condition), and uses the default `FF` otherwise; the remainder is the
display color with `#` markers removed, upper-cased. -/
theorem c5_alpha_rule (display old : Str) (hd : display ≠ []) :
    (old ≠ [] ∧ pyStartsWith old "0x".data = true →
      tk_to_ini display old =
        "0x".data ++ (old.drop 2).take 2 ++
          pyUpper (display.filter (fun c => !(c == '#')))) ∧
    (old = [] ∨ ¬ pyStartsWith old "0x".data = true →
      tk_to_ini display old =
        "0x".data ++ "FF".data ++
          pyUpper (display.filter (fun c => !(c == '#')))) := by
  constructor
  · intro h
    rw [tk_to_ini, if_neg hd]
    simp only [if_pos h]
  · intro h
    rw [tk_to_ini, if_neg hd]
    have : ¬ (old ≠ [] ∧ pyStartsWith old "0x".data = true) := by
      rcases h with h | h
      · exact fun hc => hc.1 h
      · exact fun hc => h hc.2
    simp only [if_neg this]

/-- Witness for `c5_alpha_rule`: with previous value `0xAB` (length 4)
the alpha byte `AB` is preserved. -/
theorem c5_alpha_rule_witness :
    tk_to_ini "#010203".data "0xAB".data = "0xAB010203".data := by
  have h := (c5_alpha_rule "#010203".data "0xAB".data (by decide)).1 ⟨by decide, by decide⟩
  simpa using h

/-- Claim C6 (counterexample): `0xZZZZZZZZ` is not a well-formed stored
color (its digits are not hex), yet `ini_to_tk` does not return the
white fallback: the source validates only emptiness, the `0x` prefix
and the length, never the digits. -/
theorem c6_fallback_counterexample :
    specValidStoredColor "0xZZZZZZZZ".data = false ∧
    ini_to_tk "0xZZZZZZZZ".data = "#zzzzzz".data ∧
    "#zzzzzz".data ≠ "#FFFFFF".data := by
  refine ⟨by decide, by decide, by decide⟩

/-- Claim C6 (amended): `ini_to_tk` returns the fixed white fallback
`#FFFFFF` for every input that is empty, lacks the `0x` prefix, or does
not have length 10 (and, being a total function, never raises); inputs
passing those three checks are converted even when their digits are not
hexadecimal. -/
theorem c6_fallback (c : Str)
    (h : c = [] ∨ ¬ pyStartsWith c "0x".data = true ∨ c.length ≠ 10) :
    ini_to_tk c = "#FFFFFF".data := by
  rw [ini_to_tk, if_pos h]

/-- Witness for `c6_fallback` at the malformed input `0xAB`. -/
theorem c6_fallback_witness : ini_to_tk "0xAB".data = "#FFFFFF".data :=
  c6_fallback "0xAB".data (by decide)

/-!  ## Data model: skill entries and the skills mapping -/

/-- One parsed skill entry: `{"comment": ..., "image": ..., "color": ...}`,
each field `None` by default. -/
structure SkillData where
  comment : Option Str := none
  image : Option Str := none
  color : Option Str := none
deriving DecidableEq

/-- A fresh entry: `{"comment": None, "image": None, "color": None}`. -/
def defaultSkill : SkillData := {}

/-- Python truthiness of an optional string (`None` and `""` are falsy). -/
def optTruthy : Option Str → Bool
  | none => false
  | some [] => false
  | some (_ :: _) => true

/-- The `skills` dict: an insertion-ordered association list with unique keys. -/
abbrev Skills := List (Str × SkillData)

/-- Dictionary lookup. -/
def findEntry : Skills → Str → Option SkillData
  | [], _ => none
  | (k', d) :: rest, k => if k' = k then some d else findEntry rest k

/-- In-place mutation of the entry at key `k` (`skills[k][...] = ...`). -/
def updateEntry (m : Skills) (k : Str) (f : SkillData → SkillData) : Skills :=
  m.map (fun p => if p.1 = k then (p.1, f p.2) else p)

/-- Lookup with the default entry (total version of `skills[sid]`). -/
def getEntry (m : Skills) (k : Str) : SkillData :=
  (findEntry m k).getD defaultSkill

def colorSecName : Str := "LGP::CELL_COLOR".data

def imageSecName : Str := "LGP::CELL_IMAGE".data

/-!  ## `parse_ini` -/

/-- The loop state of `parse_ini`: the accumulated `skills` dict, the
current `section` and the pending `last_comment`. -/
structure PState where
  skills : Skills := []
  sec : Option Str := none
  lastComment : Option Str := none
deriving DecidableEq

/-- A line whose stripped form is bracket-delimited (a section header). -/
def isHeader (line : Str) : Bool :=
  pyStartsWith (pyStrip line) ['['] && pyEndsWith (pyStrip line) [']']

/-- The section name of a header line (`stripped[1:-1]`). -/
def secOf (line : Str) : Str :=
  ((pyStrip line).drop 1).dropLast

/-- A line whose stripped form starts with the comment marker `;`. -/
def isCommentLine (line : Str) : Bool :=
  pyStartsWith (pyStrip line) [';']

/-- The effect of a recognized `key = value` skill line on the parse
state (the body of the innermost branch of the `parse_ini` loop):
create the entry if absent; in the color section set its color and
attach-and-clear a truthy pending comment; in the image section set its
image. -/
def skillStep (st : PState) (k v : Str) : PState :=
  let m0 :=
    if (findEntry st.skills k).isSome then st.skills
    else st.skills ++ [(k, defaultSkill)]
  let afterColor :=
    if st.sec = some colorSecName then
      updateEntry m0 k (fun d =>
        let d' := { d with color := some v }
        if optTruthy st.lastComment then { d' with comment := st.lastComment }
        else d')
    else m0
  let afterImage :=
    if st.sec = some imageSecName then
      updateEntry afterColor k (fun d => { d with image := some v })
    else afterColor
  let lc :=
    if st.sec = some colorSecName ∧ optTruthy st.lastComment then none
    else st.lastComment
  { skills := afterImage, sec := st.sec, lastComment := lc }

/-- One iteration of the `parse_ini` loop on one raw line. -/
def parseLine (st : PState) (line : Str) : PState :=
  let stripped := pyStrip line
  if isHeader line = true then
    { st with sec := some (secOf line), lastComment := none }
  else if isCommentLine line = true then
    { st with lastComment := some line }
  else if '=' ∈ stripped then
    let kv := splitFirst '=' stripped
    let key := pyStrip kv.1
    let value := pyStrip kv.2
    if pyStartsWith key "Skill".data = true ∧ key.length = 9 then
      skillStep st key value
    else st
  else st

/-- The key/value extracted from a line that the parser treats as a
skill assignment (`None` for headers, comments, lines without `=`, and
keys that fail the `Skill`-prefix/9-character test). -/
def skillAssignParts (line : Str) : Option (Str × Str) :=
  let stripped := pyStrip line
  if isHeader line = true then none
  else if isCommentLine line = true then none
  else if '=' ∈ stripped then
    let kv := splitFirst '=' stripped
    let key := pyStrip kv.1
    let value := pyStrip kv.2
    if pyStartsWith key "Skill".data = true ∧ key.length = 9 then some (key, value)
    else none
  else none

/-- The first component and the remaining components of a character
split (helper for `str.splitlines`). -/
def splitOnChar (sep : Char) : Str → Str × List Str
  | [] => ([], [])
  | c :: rest =>
    let r := splitOnChar sep rest
    if c = sep then ([], r.1 :: r.2) else (c :: r.1, r.2)

/-- Model of `text.splitlines()` for LF-separated text: split on `\n`,
dropping the final empty piece produced by a trailing newline. -/
def pySplitlines (t : Str) : List Str :=
  if t = [] then []
  else
    let r := splitOnChar '\n' t
    let parts := r.1 :: r.2
    if parts.getLast? = some [] then parts.dropLast else parts

/-- `parse_ini(text)`: returns the raw line list and the skills dict. -/
def parse_ini (text : Str) : List Str × Skills :=
  let lines := pySplitlines text
  (lines, (lines.foldl parseLine {}).skills)

/-!  ## `apply_filename_rules` -/

/-- The per-entry body of `apply_filename_rules`. -/
def inferImage (sid : Str) (d : SkillData) : SkillData :=
  if optTruthy d.image then d
  else if optTruthy d.comment ∧ '#' ∈ d.comment.getD [] then
    let name := pyStrip (splitFirst '#' (d.comment.getD [])).2
    { d with image := some (pyLower name ++ ".bmp".data) }
  else
    { d with image := some (pyLower sid ++ ".bmp".data) }

/-- `apply_filename_rules(skills)`: fill every falsy image field from the
comment (text after the first `#`, stripped, lower-cased, plus `.bmp`)
or from the lower-cased identifier. -/
def apply_filename_rules (m : Skills) : Skills :=
  m.map (fun p => (p.1, inferImage p.1 p.2))

/-!  ## `rebuild_ini` -/

/-- Lexicographic string comparison by code point (Python `sorted` order). -/
def strLe : Str → Str → Bool
  | [], _ => true
  | _ :: _, [] => false
  | a :: as, b :: bs => if a < b then true else if b < a then false else strLe as bs

/-- `sorted(skills.keys())`. -/
def skill_ids (m : Skills) : List Str :=
  List.insertionSort (fun a b => strLe a b = true) (m.map Prod.fst)

/-- Python's f-string rendering of an optional string (`None` prints as
the four characters `None`). -/
def fmtOptStr : Option Str → Str
  | none => "None".data
  | some s => s

/-- The lines emitted for one entry of the rebuilt `[LGP::CELL_IMAGE]`
body: optional comment, `sid = image`, blank separator. -/
def entryImageLines (sid : Str) (d : SkillData) : List Str :=
  (if optTruthy d.comment then [d.comment.getD []] else []) ++
    [sid ++ " = ".data ++ fmtOptStr d.image] ++ [[]]

/-- The lines emitted for one entry of the rebuilt `[LGP::CELL_COLOR]`
body: nothing if the color is falsy, else optional comment, `sid=color`,
blank separator. -/
def entryColorLines (sid : Str) (d : SkillData) : List Str :=
  if optTruthy d.color then
    (if optTruthy d.comment then [d.comment.getD []] else []) ++
      [sid ++ "=".data ++ fmtOptStr d.color] ++ [[]]
  else []

/-- The regenerated body of the image section. -/
def imageBlock (m : Skills) : List Str :=
  (skill_ids m).flatMap (fun sid => entryImageLines sid (getEntry m sid))

/-- The regenerated body of the color section. -/
def colorBlock (m : Skills) : List Str :=
  (skill_ids m).flatMap (fun sid => entryColorLines sid (getEntry m sid))

theorem dropWhile_length_le (p : α → Bool) (l : List α) :
    (l.dropWhile p).length ≤ l.length :=
  (List.dropWhile_suffix p).sublist.length_le

/-- The line-emission loop of `rebuild_ini`: managed headers are copied
and followed by a regenerated body while the old body (up to the next
header) is skipped; every other line is copied verbatim. -/
def rebuildLines (m : Skills) : List Str → List Str
  | [] => []
  | line :: rest =>
    if isHeader line = true then
      if secOf line = imageSecName then
        line :: (imageBlock m ++
          rebuildLines m (rest.dropWhile (fun l => !(isHeader l))))
      else if secOf line = colorSecName then
        line :: (colorBlock m ++
          rebuildLines m (rest.dropWhile (fun l => !(isHeader l))))
      else line :: rebuildLines m rest
    else line :: rebuildLines m rest
termination_by ls => ls.length
decreasing_by
  · exact Nat.lt_succ_of_le (dropWhile_length_le _ _)
  · exact Nat.lt_succ_of_le (dropWhile_length_le _ _)
  · simp
  · simp

/-- Model of `"\n".join(lines)`. -/
def joinNL : List Str → Str
  | [] => []
  | [l] => l
  | l :: l' :: rest => l ++ '\n' :: joinNL (l' :: rest)

/-- `rebuild_ini(lines, skills) = "\n".join(new_lines) + "\n"`. -/
def rebuild_ini (lines : List Str) (m : Skills) : Str :=
  joinNL (rebuildLines m lines) ++ ['\n']

/-- The core entry point `parseAndInfer`: `parse_ini` followed by
`apply_filename_rules` (as in the application's file-open path). -/
def parseAndInfer (text : Str) : List Str × Skills :=
  ((parse_ini text).1, apply_filename_rules (parse_ini text).2)

/-- One full pass: parse-and-infer, then rebuild. -/
def passOnce (text : Str) : Str :=
  rebuild_ini (parseAndInfer text).1 (parseAndInfer text).2

/-!  ## Step lemmas classifying `parseLine` -/

theorem parseLine_header (st : PState) (line : Str) (h : isHeader line = true) :
    parseLine st line = { st with sec := some (secOf line), lastComment := none } := by
  simp only [parseLine, h, if_true]

theorem parseLine_comment (st : PState) (line : Str)
    (h1 : isHeader line = false) (h2 : isCommentLine line = true) :
    parseLine st line = { st with lastComment := some line } := by
  simp only [parseLine, h1, h2, Bool.false_eq_true, if_false, if_true]

theorem parseLine_skill (st : PState) (line k v : Str)
    (h : skillAssignParts line = some (k, v)) :
    parseLine st line = skillStep st k v := by
  simp only [skillAssignParts] at h
  simp only [parseLine]
  by_cases h1 : isHeader line = true
  · rw [if_pos h1] at h; exact absurd h (by simp)
  · rw [if_neg h1] at h; rw [if_neg h1]
    by_cases h2 : isCommentLine line = true
    · rw [if_pos h2] at h; exact absurd h (by simp)
    · rw [if_neg h2] at h; rw [if_neg h2]
      by_cases h3 : '=' ∈ pyStrip line
      · rw [if_pos h3] at h; rw [if_pos h3]
        by_cases h4 : pyStartsWith (pyStrip (splitFirst '=' (pyStrip line)).1) "Skill".data
            = true ∧ (pyStrip (splitFirst '=' (pyStrip line)).1).length = 9
        · rw [if_pos h4] at h; rw [if_pos h4]
          simp only [Option.some.injEq, Prod.mk.injEq] at h
          rw [h.1, h.2]
        · rw [if_neg h4] at h; exact absurd h (by simp)
      · rw [if_neg h3] at h; exact absurd h (by simp)

theorem parseLine_other (st : PState) (line : Str)
    (h1 : isHeader line = false) (h2 : isCommentLine line = false)
    (h3 : skillAssignParts line = none) :
    parseLine st line = st := by
  simp only [skillAssignParts] at h3
  rw [if_neg (by simp [h1]), if_neg (by simp [h2])] at h3
  simp only [parseLine]
  rw [if_neg (by simp [h1]), if_neg (by simp [h2])]
  by_cases h4 : '=' ∈ pyStrip line
  · rw [if_pos h4] at h3; rw [if_pos h4]
    by_cases h5 : pyStartsWith (pyStrip (splitFirst '=' (pyStrip line)).1) "Skill".data
        = true ∧ (pyStrip (splitFirst '=' (pyStrip line)).1).length = 9
    · rw [if_pos h5] at h3; exact absurd h3 (by simp)
    · rw [if_neg h5]
  · rw [if_neg h4]

/-- Claim C4 (counterexample): the line `Skill0001 = x` with no section
header in scope does create a `SkillEntry` (with every field default):
the parser creates entries on first reference before looking at the
current section, so the claim's "creates no SkillEntry" is false. -/
theorem c4_entry_counterexample :
    findEntry (parse_ini "Skill0001 = x".data).2 "Skill0001".data = some defaultSkill ∧
    (parse_ini "Skill0001 = x".data).2 ≠ [] := by
  refine ⟨by decide, by decide⟩

/-- Claim C4 (amended): a `key = value` line whose key matches the skill
pattern but which is parsed outside the two managed sections creates the
entry (if absent) with all fields default and sets no field: the skills
dict is unchanged except for the possible fresh default entry. -/
theorem c4_outside_no_field_set (st : PState) (line k v : Str)
    (h : skillAssignParts line = some (k, v))
    (hc : st.sec ≠ some colorSecName) (hi : st.sec ≠ some imageSecName) :
    (parseLine st line).skills =
      (if (findEntry st.skills k).isSome then st.skills
       else st.skills ++ [(k, defaultSkill)]) := by
  rw [parseLine_skill st line k v h]
  simp [skillStep, hc, hi]

/-- Witness for `c4_outside_no_field_set`: inside section `[FOO]` the
line `Skill0001 = x` adds a default entry and records nothing. -/
theorem c4_outside_no_field_set_witness :
    (parseLine { skills := [], sec := some "FOO".data, lastComment := none }
      "Skill0001 = x".data).skills = [("Skill0001".data, defaultSkill)] := by
  have h := c4_outside_no_field_set
    { skills := [], sec := some "FOO".data, lastComment := none }
    "Skill0001 = x".data "Skill0001".data "x".data (by decide) (by decide) (by decide)
  exact h.trans (by decide)

/-- One step of the single-pass equivalent of the rebuild loop: the
Boolean records whether the walk is inside a managed body that is being
skipped. -/
def rebuildStep (m : Skills) (p : Bool × List Str) (line : Str) : Bool × List Str :=
  if isHeader line = true then
    if secOf line = imageSecName then (true, p.2 ++ line :: imageBlock m)
    else if secOf line = colorSecName then (true, p.2 ++ line :: colorBlock m)
    else (false, p.2 ++ [line])
  else if p.1 then p
  else (false, p.2 ++ [line])

/-- Structural (left-fold) form of `rebuildLines`, used to evaluate the
rebuilder on concrete inputs; `rebuildLines_eq_fold` proves it equal to
the direct recursion. -/
def rebuildLinesFold (m : Skills) (lines : List Str) : List Str :=
  (lines.foldl (rebuildStep m) (false, [])).2

theorem dropWhile_head_false {p : α → Bool} :
    ∀ (l : List α) {a : α} {t : List α}, l.dropWhile p = a :: t → p a = false := by
  intro l
  induction l with
  | nil =>
    intro a t h
    simp at h
  | cons x xs ih =>
    intro a t h
    rw [List.dropWhile_cons] at h
    by_cases hx : p x = true
    · rw [if_pos hx] at h
      exact ih h
    · rw [if_neg hx] at h
      cases h
      simpa using hx

theorem rebuildStep_header (m : Skills) (b : Bool) (acc : List Str) {line : Str}
    (h : isHeader line = true) :
    rebuildStep m (b, acc) line = rebuildStep m (false, acc) line := by
  simp only [rebuildStep, h, if_true]

theorem foldl_rebuildStep_skip (m : Skills) (ls : List Str) (acc : List Str) :
    ls.foldl (rebuildStep m) (true, acc) =
      (ls.dropWhile (fun l => !(isHeader l))).foldl (rebuildStep m) (true, acc) := by
  induction ls with
  | nil => rfl
  | cons l rest ih =>
    by_cases h : isHeader l = true
    · rw [List.dropWhile_cons, if_neg (by simp [h])]
    · rw [List.dropWhile_cons, if_pos (by simp [h]), List.foldl_cons]
      have hstep : rebuildStep m (true, acc) l = (true, acc) := by
        rw [rebuildStep, if_neg (by simp [h])]
        rfl
      rw [hstep, ih]

theorem foldl_rebuildStep_spec (m : Skills) (lines : List Str) :
    ∀ acc, (lines.foldl (rebuildStep m) (false, acc)).2 = acc ++ rebuildLines m lines := by
  induction lines using rebuildLines.induct m with
  | case1 =>
    intro acc
    simp [rebuildLines]
  | case2 line rest hh hsec ih =>
    intro acc
    rw [List.foldl_cons]
    have hstep : rebuildStep m (false, acc) line = (true, acc ++ line :: imageBlock m) := by
      rw [rebuildStep, if_pos hh, if_pos hsec]
    rw [hstep, rebuildLines, if_pos hh, if_pos hsec, foldl_rebuildStep_skip]
    cases hdw : rest.dropWhile (fun l => !(isHeader l)) with
    | nil => simp [rebuildLines]
    | cons h' t' =>
      have hh' : isHeader h' = true := by
        have := dropWhile_head_false _ hdw
        simpa using this
      rw [List.foldl_cons, rebuildStep_header m true _ hh', ← List.foldl_cons]
      rw [hdw] at ih
      rw [ih]
      simp
  | case3 line rest hh hsec1 hsec2 ih =>
    intro acc
    rw [List.foldl_cons]
    have hstep : rebuildStep m (false, acc) line = (true, acc ++ line :: colorBlock m) := by
      rw [rebuildStep, if_pos hh, if_neg hsec1, if_pos hsec2]
    rw [hstep, rebuildLines, if_pos hh, if_neg hsec1, if_pos hsec2, foldl_rebuildStep_skip]
    cases hdw : rest.dropWhile (fun l => !(isHeader l)) with
    | nil => simp [rebuildLines]
    | cons h' t' =>
      have hh' : isHeader h' = true := by
        have := dropWhile_head_false _ hdw
        simpa using this
      rw [List.foldl_cons, rebuildStep_header m true _ hh', ← List.foldl_cons]
      rw [hdw] at ih
      rw [ih]
      simp
  | case4 line rest hh hsec1 hsec2 ih =>
    intro acc
    rw [List.foldl_cons]
    have hstep : rebuildStep m (false, acc) line = (false, acc ++ [line]) := by
      rw [rebuildStep, if_pos hh, if_neg hsec1, if_neg hsec2]
    rw [hstep, ih, rebuildLines, if_pos hh, if_neg hsec1, if_neg hsec2]
    simp
  | case5 line rest hh ih =>
    intro acc
    rw [List.foldl_cons]
    have hstep : rebuildStep m (false, acc) line = (false, acc ++ [line]) := by
      rw [rebuildStep, if_neg (by simp [hh])]
      rfl
    rw [hstep, ih, rebuildLines, if_neg (by simp [hh])]
    simp

theorem rebuildLines_eq_fold (m : Skills) (lines : List Str) :
    rebuildLines m lines = rebuildLinesFold m lines := by
  rw [rebuildLinesFold, foldl_rebuildStep_spec m lines []]
  rfl

theorem rebuild_ini_eval (lines : List Str) (m : Skills) :
    rebuild_ini lines m = joinNL (rebuildLinesFold m lines) ++ ['\n'] := by
  rw [rebuild_ini, rebuildLines_eq_fold]

/-- The number of newline characters at the end of a string. -/
def trailingNewlines (s : Str) : Nat :=
  (s.reverse.takeWhile (fun c => c == '\n')).length

/-- Claim C8 (counterexample): for raw lines `["a", ""]` and an empty
mapping the rebuilt text is `a\n\n`, which ends with two newline
characters, not exactly one. -/
theorem c8_counterexample :
    rebuild_ini [['a'], []] [] = ['a', '\n', '\n'] ∧
    trailingNewlines (rebuild_ini [['a'], []] []) = 2 := by
  rw [rebuild_ini_eval]
  refine ⟨by decide, by decide⟩

/-- Claim C8 (amended): the rebuilder appends exactly one `\n` to the
newline-join of the emitted lines, so its output always ends with a
newline — but when the last emitted line is blank the text ends with
more than one `\n`. -/
theorem c8_trailing_newline (lines : List Str) (m : Skills) :
    rebuild_ini lines m = joinNL (rebuildLines m lines) ++ ['\n'] ∧
    (rebuild_ini lines m).getLast? = some '\n' := by
  refine ⟨rfl, ?_⟩
  rw [rebuild_ini]
  exact List.getLast?_concat _

/-- Claim C9: the pending comment is cleared by a section header,
replaced by a newer comment line, consumed (cleared) exactly at a
skill line of the color section when it is truthy, and left unchanged
by every other line (blank lines and unrecognized lines included). -/
theorem c9_pending_comment (st : PState) (line : Str) :
    (isHeader line = true → (parseLine st line).lastComment = none) ∧
    (isHeader line = false → isCommentLine line = true →
      (parseLine st line).lastComment = some line) ∧
    (isHeader line = false → isCommentLine line = false →
      (∀ k v, skillAssignParts line = some (k, v) →
        (parseLine st line).lastComment =
          (if st.sec = some colorSecName ∧ optTruthy st.lastComment then none
           else st.lastComment)) ∧
      (skillAssignParts line = none →
        (parseLine st line).lastComment = st.lastComment)) := by
  refine ⟨fun h => ?_, fun h1 h2 => ?_, fun h1 h2 => ⟨fun k v hkv => ?_, fun hn => ?_⟩⟩
  · rw [parseLine_header st line h]
  · rw [parseLine_comment st line h1 h2]
  · rw [parseLine_skill st line k v hkv]; rfl
  · rw [parseLine_other st line h1 h2 hn]

/-- Witness for `c9_pending_comment`: a blank line inside the color
section leaves the pending comment `;c` pending. -/
theorem c9_pending_comment_witness :
    (parseLine ⟨[], some colorSecName, some ";c".data⟩ []).lastComment =
      some ";c".data := by
  have h := (c9_pending_comment ⟨[], some colorSecName, some ";c".data⟩ []).2.2
    (by decide) (by decide)
  exact h.2 (by decide)

/-!  ## Ordering of skill identifiers (claim C7) -/

theorem strLe_total : ∀ a b : Str, strLe a b = true ∨ strLe b a = true
  | [], _ => Or.inl rfl
  | _ :: _, [] => Or.inr rfl
  | a :: as, b :: bs => by
    rcases lt_trichotomy a b with h | h | h
    · left
      rw [strLe, if_pos h]
    · subst h
      rcases strLe_total as bs with ih | ih
      · left
        rw [strLe, if_neg (lt_irrefl a), if_neg (lt_irrefl a)]
        exact ih
      · right
        rw [strLe, if_neg (lt_irrefl a), if_neg (lt_irrefl a)]
        exact ih
    · right
      rw [strLe, if_pos h]

theorem strLe_trans : ∀ a b c : Str,
    strLe a b = true → strLe b c = true → strLe a c = true
  | [], _, _, _, _ => rfl
  | _ :: _, [], _, hab, _ => by
    rw [strLe] at hab
    exact absurd hab (by simp)
  | _ :: _, _ :: _, [], _, hbc => by
    rw [strLe] at hbc
    exact absurd hbc (by simp)
  | a :: as, b :: bs, c :: cs, hab, hbc => by
    rw [strLe] at hab hbc ⊢
    by_cases h1 : a < b
    · by_cases h2 : b < c
      · rw [if_pos (lt_trans h1 h2)]
      · by_cases h3 : c < b
        · rw [if_neg h2, if_pos h3] at hbc
          exact absurd hbc (by simp)
        · have hbc' : b = c := le_antisymm (not_lt.mp h3) (not_lt.mp h2)
          subst hbc'
          rw [if_pos h1]
    · by_cases h2 : b < a
      · rw [if_neg h1, if_pos h2] at hab
        exact absurd hab (by simp)
      · have hab' : a = b := le_antisymm (not_lt.mp h2) (not_lt.mp h1)
        subst hab'
        rw [if_neg (lt_irrefl a), if_neg (lt_irrefl a)] at hab
        by_cases h3 : a < c
        · rw [if_pos h3]
        · rw [if_neg h3] at hbc ⊢
          by_cases h4 : c < a
          · rw [if_pos h4] at hbc
            exact absurd hbc (by simp)
          · rw [if_neg h4] at hbc ⊢
            exact strLe_trans as bs cs hab hbc

theorem strLe_antisymm : ∀ a b : Str, strLe a b = true → strLe b a = true → a = b
  | [], [], _, _ => rfl
  | [], _ :: _, _, hba => by
    rw [strLe] at hba
    exact absurd hba (by simp)
  | _ :: _, [], hab, _ => by
    rw [strLe] at hab
    exact absurd hab (by simp)
  | a :: as, b :: bs, hab, hba => by
    rw [strLe] at hab hba
    by_cases h1 : a < b
    · rw [if_neg (lt_asymm h1), if_pos h1] at hba
      exact absurd hba (by simp)
    · by_cases h2 : b < a
      · rw [if_neg h1, if_pos h2] at hab
        exact absurd hab (by simp)
      · have h3 : a = b := le_antisymm (not_lt.mp h2) (not_lt.mp h1)
        subst h3
        rw [if_neg h1, if_neg h1] at hab hba
        rw [strLe_antisymm as bs hab hba]

/-- The ordering used by `sorted(skills.keys())` as a relation. -/
def strLeRel (a b : Str) : Prop := strLe a b = true

instance : DecidableRel strLeRel :=
  fun a b => inferInstanceAs (Decidable (strLe a b = true))

instance : IsTotal Str strLeRel := ⟨strLe_total⟩

instance : IsTrans Str strLeRel := ⟨strLe_trans⟩

instance : IsAntisymm Str strLeRel := ⟨strLe_antisymm⟩

/-- Claim C7: the identifiers of the regenerated managed bodies are
emitted in ascending (lexicographic, Python `sorted`) order: the id
list driving both blocks is sorted, and each block is exactly the
per-entry rendering iterated over that sorted list; the id list depends
only on the mapping, never on the raw-line order. -/
theorem c7_sorted_blocks (m : Skills) :
    List.Pairwise strLeRel (skill_ids m) ∧
    imageBlock m = (skill_ids m).flatMap (fun sid => entryImageLines sid (getEntry m sid)) ∧
    colorBlock m = (skill_ids m).flatMap (fun sid => entryColorLines sid (getEntry m sid)) := by
  refine ⟨?_, rfl, rfl⟩
  exact List.sorted_insertionSort strLeRel (m.map Prod.fst)

/-!  ## Dictionary lemmas and the duplicate-key claim (C10) -/

/-- The key list of the skills dict. -/
def keysOf (m : Skills) : List Str := m.map Prod.fst

theorem findEntry_isSome_iff (m : Skills) (k : Str) :
    (findEntry m k).isSome = true ↔ k ∈ keysOf m := by
  induction m with
  | nil =>
    constructor
    · intro h
      rw [findEntry] at h
      exact absurd h (by decide)
    · intro h
      exact absurd h (List.not_mem_nil k)
  | cons p rest ih =>
    obtain ⟨k', d⟩ := p
    rw [keysOf, List.map_cons]
    by_cases h : k' = k
    · subst h
      rw [findEntry, if_pos rfl]
      exact ⟨fun _ => List.mem_cons_self _ _, fun _ => rfl⟩
    · rw [findEntry, if_neg h, List.mem_cons]
      rw [keysOf] at ih
      rw [ih]
      constructor
      · exact fun hm => Or.inr hm
      · rintro (hm | hm)
        · exact absurd hm.symm h
        · exact hm

theorem keysOf_updateEntry (m : Skills) (k : Str) (f : SkillData → SkillData) :
    keysOf (updateEntry m k f) = keysOf m := by
  induction m with
  | nil => rfl
  | cons p rest ih =>
    simp only [updateEntry, keysOf, List.map_cons] at *
    by_cases h : p.1 = k
    · rw [if_pos h]
      simp only [ih]
    · rw [if_neg h]
      simp only [ih]

theorem findEntry_updateEntry (m : Skills) (k : Str) (f : SkillData → SkillData) :
    findEntry (updateEntry m k f) k = (findEntry m k).map f := by
  induction m with
  | nil => rfl
  | cons p rest ih =>
    obtain ⟨k', d⟩ := p
    by_cases h : k' = k
    · subst h
      rw [updateEntry, List.map_cons]
      have hhead : (if ((k', d) : Str × SkillData).1 = k'
          then ((k', d).1, f (k', d).2) else (k', d)) = (k', f d) := by
        simp
      rw [hhead, findEntry, if_pos rfl, findEntry, if_pos rfl]
      rfl
    · simp only [updateEntry, List.map_cons, if_neg h]
      rw [findEntry, findEntry, if_neg h, if_neg h]
      simpa [updateEntry] using ih

theorem findEntry_updateEntry_ne (m : Skills) {k k' : Str} (f : SkillData → SkillData)
    (h : k' ≠ k) :
    findEntry (updateEntry m k f) k' = findEntry m k' := by
  induction m with
  | nil => rfl
  | cons p rest ih =>
    obtain ⟨k'', d⟩ := p
    by_cases h2 : k'' = k
    · subst h2
      simp only [updateEntry, List.map_cons, if_pos rfl]
      rw [findEntry, findEntry, if_neg (fun hc => h hc.symm), if_neg (fun hc => h hc.symm)]
      simpa [updateEntry] using ih
    · simp only [updateEntry, List.map_cons, if_neg h2]
      by_cases h3 : k'' = k'
      · rw [findEntry, findEntry, if_pos h3, if_pos h3]
      · rw [findEntry, findEntry, if_neg h3, if_neg h3]
        simpa [updateEntry] using ih

theorem findEntry_append_fresh (m : Skills) (k : Str) (d : SkillData)
    (h : (findEntry m k).isSome = false) :
    findEntry (m ++ [(k, d)]) k = some d := by
  induction m with
  | nil => simp [findEntry]
  | cons p rest ih =>
    obtain ⟨k', d'⟩ := p
    by_cases h2 : k' = k
    · subst h2
      rw [findEntry, if_pos rfl] at h
      simp at h
    · rw [findEntry, if_neg h2] at h
      rw [List.cons_append, findEntry, if_neg h2]
      exact ih h

theorem findEntry_ensure_isSome (sk : Skills) (k : Str) :
    ∃ d0, findEntry
      (if (findEntry sk k).isSome = true then sk else sk ++ [(k, defaultSkill)]) k =
        some d0 := by
  by_cases h : (findEntry sk k).isSome = true
  · rw [if_pos h]
    exact Option.isSome_iff_exists.mp h
  · rw [if_neg h]
    exact ⟨defaultSkill, findEntry_append_fresh _ _ _ (by simpa using h)⟩

/-- After a color-section skill line, the entry's color is the line's
value (overwriting any earlier value). -/
theorem skillStep_getEntry_color (st : PState) (k v : Str)
    (hsec : st.sec = some colorSecName) :
    (getEntry (skillStep st k v).skills k).color = some v := by
  obtain ⟨sk, sc, lc⟩ := st
  obtain rfl : sc = some colorSecName := hsec
  have hne := eq_false (show ¬ (some colorSecName = some imageSecName) by decide)
  simp only [skillStep, hne, if_false, eq_self_iff_true, if_true]
  obtain ⟨d0, hd0⟩ := findEntry_ensure_isSome sk k
  rw [getEntry, findEntry_updateEntry, hd0]
  simp only [Option.map_some', Option.getD_some]
  by_cases hc : optTruthy lc = true
  · rw [if_pos hc]
  · rw [if_neg hc]

/-- Keys only grow by the fresh key, so nodup is preserved by one step. -/
theorem parseLine_keys_nodup (st : PState) (line : Str)
    (h : (keysOf st.skills).Nodup) :
    (keysOf (parseLine st line).skills).Nodup := by
  by_cases h1 : isHeader line = true
  · rw [parseLine_header st line h1]
    exact h
  replace h1 : isHeader line = false := by simpa using h1
  by_cases h2 : isCommentLine line = true
  · rw [parseLine_comment st line h1 h2]
    exact h
  replace h2 : isCommentLine line = false := by simpa using h2
  cases hkv : skillAssignParts line with
  | none =>
    rw [parseLine_other st line h1 h2 hkv]
    exact h
  | some kv =>
    rw [parseLine_skill st line kv.1 kv.2 (by rw [hkv])]
    simp only [skillStep]
    have hm0 : (keysOf (if (findEntry st.skills kv.1).isSome then st.skills
        else st.skills ++ [(kv.1, defaultSkill)])).Nodup := by
      by_cases hin : (findEntry st.skills kv.1).isSome
      · rw [if_pos hin]
        exact h
      · rw [if_neg hin]
        have hnotin : kv.1 ∉ keysOf st.skills := by
          rw [← findEntry_isSome_iff]
          simpa using hin
        rw [keysOf, List.map_append]
        refine List.Nodup.append h (List.nodup_singleton _) ?_
        intro a ha hb
        simp only [List.map_cons, List.map_nil, List.mem_singleton] at hb
        subst hb
        exact hnotin ha
    by_cases hc : st.sec = some colorSecName
    · rw [if_pos hc, if_neg (by rw [hc]; decide)]
      rw [keysOf_updateEntry]
      exact hm0
    · rw [if_neg hc]
      by_cases hi : st.sec = some imageSecName
      · rw [if_pos hi, keysOf_updateEntry]
        exact hm0
      · rw [if_neg hi]
        exact hm0

/-- The initial parse state. -/
def initState : PState := {}

theorem parse_keys_nodup (lines : List Str) :
    ∀ st : PState, (keysOf st.skills).Nodup →
      (keysOf (lines.foldl parseLine st).skills).Nodup := by
  induction lines with
  | nil => exact fun st h => h
  | cons l rest ih =>
    intro st h
    rw [List.foldl_cons]
    exact ih _ (parseLine_keys_nodup st l h)

/-!  ## Line preservation outside the managed sections (claim C2) -/

/-- The raw lines lying outside the two managed section bodies: the
same walk as `rebuildLines`, keeping headers and unmanaged lines and
dropping managed bodies, but inserting nothing. -/
def outsideLines : List Str → List Str
  | [] => []
  | line :: rest =>
    if isHeader line = true then
      if secOf line = imageSecName then
        line :: outsideLines (rest.dropWhile (fun l => !(isHeader l)))
      else if secOf line = colorSecName then
        line :: outsideLines (rest.dropWhile (fun l => !(isHeader l)))
      else line :: outsideLines rest
    else line :: outsideLines rest
termination_by ls => ls.length
decreasing_by
  · exact Nat.lt_succ_of_le (dropWhile_length_le _ _)
  · exact Nat.lt_succ_of_le (dropWhile_length_le _ _)
  · simp
  · simp

/-- Claim C2: every raw line outside the two managed sections appears
byte-identical, in the same relative order, in the rebuilt output
(the outside lines form a sublist of the output); and the only other
lines of the output are the regenerated managed bodies. -/
theorem c2_line_preservation (m : Skills) (lines : List Str) :
    List.Sublist (outsideLines lines) (rebuildLines m lines) ∧
    ∀ x ∈ rebuildLines m lines,
      x ∈ outsideLines lines ∨ x ∈ imageBlock m ∨ x ∈ colorBlock m := by
  induction lines using rebuildLines.induct m with
  | case1 =>
    rw [rebuildLines, outsideLines]
    exact ⟨List.Sublist.refl _, by intro x hx; exact absurd hx (List.not_mem_nil x)⟩
  | case2 line rest hh hsec ih =>
    rw [rebuildLines, if_pos hh, if_pos hsec, outsideLines, if_pos hh, if_pos hsec]
    constructor
    · exact (ih.1.trans (List.sublist_append_right _ _)).cons₂ _
    · intro x hx
      rcases List.mem_cons.mp hx with rfl | hx
      · exact Or.inl (List.mem_cons_self _ _)
      · rcases List.mem_append.mp hx with hx | hx
        · exact Or.inr (Or.inl hx)
        · rcases ih.2 x hx with h | h
          · exact Or.inl (List.mem_cons_of_mem _ h)
          · exact Or.inr h
  | case3 line rest hh hsec1 hsec2 ih =>
    rw [rebuildLines, if_pos hh, if_neg hsec1, if_pos hsec2,
      outsideLines, if_pos hh, if_neg hsec1, if_pos hsec2]
    constructor
    · exact (ih.1.trans (List.sublist_append_right _ _)).cons₂ _
    · intro x hx
      rcases List.mem_cons.mp hx with rfl | hx
      · exact Or.inl (List.mem_cons_self _ _)
      · rcases List.mem_append.mp hx with hx | hx
        · exact Or.inr (Or.inr hx)
        · rcases ih.2 x hx with h | h
          · exact Or.inl (List.mem_cons_of_mem _ h)
          · exact Or.inr h
  | case4 line rest hh hsec1 hsec2 ih =>
    rw [rebuildLines, if_pos hh, if_neg hsec1, if_neg hsec2,
      outsideLines, if_pos hh, if_neg hsec1, if_neg hsec2]
    constructor
    · exact ih.1.cons₂ _
    · intro x hx
      rcases List.mem_cons.mp hx with rfl | hx
      · exact Or.inl (List.mem_cons_self _ _)
      · rcases ih.2 x hx with h | h
        · exact Or.inl (List.mem_cons_of_mem _ h)
        · exact Or.inr h
  | case5 line rest hh ih =>
    rw [rebuildLines, if_neg (by simp [hh]), outsideLines, if_neg (by simp [hh])]
    constructor
    · exact ih.1.cons₂ _
    · intro x hx
      rcases List.mem_cons.mp hx with rfl | hx
      · exact Or.inl (List.mem_cons_self _ _)
      · rcases ih.2 x hx with h | h
        · exact Or.inl (List.mem_cons_of_mem _ h)
        · exact Or.inr h

/-!  ## String-level invariants used by the round-trip proof (claim C1) -/

/-- A string without newline characters (one emitted line). -/
def noNL (s : Str) : Prop := '\n' ∉ s

/-- A string unchanged by `strip()`. -/
def stripInv (s : Str) : Prop := pyStrip s = s

theorem pySpace_pyLowerChar (c : Char) : pySpace (pyLowerChar c) = pySpace c := by
  unfold pyLowerChar
  split <;> rfl

theorem pyLowerChar_newline {c : Char} (h : pyLowerChar c = '\n') : c = '\n' := by
  revert h
  unfold pyLowerChar
  split <;> intro h <;> first | exact h | exact absurd h (by decide)

theorem dropWhile_eq_self_of_head {p : α → Bool} {l : List α}
    (h : ∀ c, l.head? = some c → p c = false) : l.dropWhile p = l := by
  cases l with
  | nil => rfl
  | cons c t =>
    rw [List.dropWhile_cons, if_neg (by simp [h c rfl])]

theorem pyStrip_eq_self {s : Str}
    (h1 : ∀ c, s.head? = some c → pySpace c = false)
    (h2 : ∀ c, s.getLast? = some c → pySpace c = false) : pyStrip s = s := by
  rw [pyStrip, dropWhile_eq_self_of_head h1, dropWhile_eq_self_of_head, List.reverse_reverse]
  intro c hc
  rw [List.head?_reverse] at hc
  exact h2 c hc

theorem mem_dropWhile {p : α → Bool} {l : List α} {a : α}
    (h : a ∈ l.dropWhile p) : a ∈ l :=
  (List.dropWhile_suffix p).subset h

theorem mem_pyStrip {s : Str} {a : Char} (h : a ∈ pyStrip s) : a ∈ s := by
  rw [pyStrip] at h
  rw [List.mem_reverse] at h
  have h2 := mem_dropWhile h
  rw [List.mem_reverse] at h2
  exact mem_dropWhile h2

theorem pyStrip_head_not_space {s : Str} :
    ∀ c, (pyStrip s).head? = some c → pySpace c = false := by
  intro c hc
  have hpre : List.IsPrefix (pyStrip s) (s.dropWhile pySpace) := by
    rw [pyStrip]
    have hsuf : List.IsSuffix ((s.dropWhile pySpace).reverse.dropWhile pySpace)
        (s.dropWhile pySpace).reverse := List.dropWhile_suffix pySpace
    obtain ⟨t, ht⟩ := hsuf
    refine ⟨t.reverse, ?_⟩
    have := congrArg List.reverse ht
    rw [List.reverse_append] at this
    rw [this, List.reverse_reverse]
  obtain ⟨t, ht⟩ := hpre
  cases hs : pyStrip s with
  | nil => rw [hs] at hc; exact absurd hc (by simp)
  | cons a t' =>
    rw [hs] at hc ht
    simp only [List.head?_cons, Option.some.injEq] at hc
    subst hc
    exact dropWhile_head_false s
      (show s.dropWhile pySpace = a :: (t' ++ t) by rw [← ht]; rfl)

theorem pyStrip_last_not_space {s : Str} :
    ∀ c, (pyStrip s).getLast? = some c → pySpace c = false := by
  intro c hc
  rw [pyStrip, List.getLast?_reverse] at hc
  cases hdw : (s.dropWhile pySpace).reverse.dropWhile pySpace with
  | nil => rw [hdw] at hc; exact absurd hc (by simp)
  | cons b u =>
    rw [hdw] at hc
    simp only [List.head?_cons, Option.some.injEq] at hc
    subst hc
    exact dropWhile_head_false _ hdw

theorem pyStrip_idem (s : Str) : stripInv (pyStrip s) :=
  pyStrip_eq_self pyStrip_head_not_space pyStrip_last_not_space

theorem noNL_pyStrip {s : Str} (h : noNL s) : noNL (pyStrip s) :=
  fun hm => h (mem_pyStrip hm)

theorem pyStrip_cons_space {c : Char} (h : pySpace c = true) (s : Str) :
    pyStrip (c :: s) = pyStrip s := by
  rw [pyStrip, pyStrip, List.dropWhile_cons, if_pos (by simp [h])]

theorem pyStrip_append_space {c : Char} (h : pySpace c = true) (a : Str) :
    pyStrip (a ++ [c]) = pyStrip a := by
  rw [pyStrip, pyStrip, List.dropWhile_append]
  cases hdw : a.dropWhile pySpace with
  | nil =>
    simp only [List.isEmpty_nil, if_true]
    rw [List.dropWhile_cons, if_pos (by simp [h]), List.dropWhile_nil]
  | cons x t =>
    simp only [List.isEmpty_cons, Bool.false_eq_true, if_false]
    rw [List.reverse_append]
    simp only [List.reverse_cons, List.reverse_nil, List.nil_append, List.singleton_append]
    rw [List.dropWhile_cons, if_pos (by simp [h])]

theorem splitFirst_append_sep {sep : Char} : ∀ {a : Str}, sep ∉ a → ∀ b : Str,
    splitFirst sep (a ++ sep :: b) = (a, b) := by
  intro a
  induction a with
  | nil =>
    intro _ b
    rw [List.nil_append, splitFirst, if_pos rfl]
  | cons c t ih =>
    intro h b
    have hc : ¬ c = sep := fun hcc => h (hcc ▸ List.mem_cons_self c t)
    rw [List.cons_append, splitFirst, if_neg hc, ih (fun hm => h (List.mem_cons_of_mem c hm)) b]

theorem pyStartsWith_cons_head {s : Str} {c : Char} {p : Str}
    (h : pyStartsWith s (c :: p) = true) : ∃ t, s = c :: t ∧ pyStartsWith t p = true := by
  cases s with
  | nil => exact absurd h (by rw [pyStartsWith]; simp)
  | cons a t =>
    rw [pyStartsWith, Bool.and_eq_true, beq_iff_eq] at h
    exact ⟨t, by rw [h.1], h.2⟩

theorem pyStartsWith_cons_ne {c c' : Char} (h : c ≠ c') (t : Str) :
    pyStartsWith (c :: t) [c'] = false := by
  rw [pyStartsWith]
  simp [h]

/-- A key accepted by the parser's skill test, as stored in the dict. -/
def goodKey (k : Str) : Prop :=
  pyStartsWith k "Skill".data = true ∧ k.length = 9 ∧ stripInv k ∧ noNL k ∧ '=' ∉ k

theorem goodKey_head {k : Str} (hk : goodKey k) : ∃ t, k = 'S' :: t := by
  obtain ⟨t, ht, -⟩ := pyStartsWith_cons_head hk.1
  exact ⟨t, ht⟩

theorem getLast?_append_right {l₁ l₂ : List α} (h : l₂ ≠ []) :
    (l₁ ++ l₂).getLast? = l₂.getLast? := by
  induction l₁ with
  | nil => rfl
  | cons a t ih =>
    rw [List.cons_append, List.getLast?_cons, ih]
    cases l₂ with
    | nil => exact absurd rfl h
    | cons b u =>
      simp [List.getLast?_cons]

theorem stripInv_last_not_space {s : Str} (hs : stripInv s) :
    ∀ c, s.getLast? = some c → pySpace c = false := by
  intro c hc
  rw [← hs] at hc
  exact pyStrip_last_not_space c hc

theorem stripInv_head_not_space {s : Str} (hs : stripInv s) :
    ∀ c, s.head? = some c → pySpace c = false := by
  intro c hc
  rw [← hs] at hc
  exact pyStrip_head_not_space c hc

theorem isCommentLine_facts {c : Str} (h : isCommentLine c = true) :
    isHeader c = false ∧ c ≠ [] := by
  rw [isCommentLine] at h
  obtain ⟨t, ht, -⟩ := pyStartsWith_cons_head h
  constructor
  · rw [isHeader, ht, pyStartsWith_cons_ne (by decide)]
    rfl
  · intro hc
    rw [hc] at ht
    exact absurd ht (by simp [pyStrip])

theorem stripInv_skill_line {sid mid s : Str} (hk : goodKey sid) (hs : s ≠ [])
    (hsi : stripInv s) (_hmid : mid ≠ []) :
    stripInv (sid ++ (mid ++ s)) := by
  obtain ⟨t, ht⟩ := goodKey_head hk
  apply pyStrip_eq_self
  · intro c hc
    rw [ht] at hc
    simp only [List.cons_append, List.head?_cons, Option.some.injEq] at hc
    subst hc
    decide
  · intro c hc
    rw [getLast?_append_right (by simp [hs]), getLast?_append_right hs] at hc
    exact stripInv_last_not_space hsi c hc

theorem not_header_comment_skill_line {sid rest : Str} (hk : goodKey sid)
    (hstrip : stripInv (sid ++ rest)) :
    isHeader (sid ++ rest) = false ∧ isCommentLine (sid ++ rest) = false := by
  obtain ⟨t, ht⟩ := goodKey_head hk
  rw [isHeader, isCommentLine, hstrip, ht]
  rw [List.cons_append]
  constructor
  · rw [pyStartsWith_cons_ne (by decide)]
    rfl
  · exact pyStartsWith_cons_ne (by decide) _

/-- Parsing an emitted image-section line `sid ++ " = " ++ s`. -/
theorem skillAssign_image_line {sid s : Str} (hk : goodKey sid)
    (hs : s ≠ []) (hsi : stripInv s) :
    skillAssignParts (sid ++ ' ' :: '=' :: ' ' :: s) = some (sid, s) ∧
    isHeader (sid ++ ' ' :: '=' :: ' ' :: s) = false ∧
    isCommentLine (sid ++ ' ' :: '=' :: ' ' :: s) = false := by
  have hstrip : stripInv (sid ++ ' ' :: '=' :: ' ' :: s) :=
    @stripInv_skill_line sid [' ', '=', ' '] s hk hs hsi (by decide)
  obtain ⟨hnh, hnc⟩ := not_header_comment_skill_line hk hstrip
  refine ⟨?_, hnh, hnc⟩
  have hsplit : splitFirst '=' (sid ++ ' ' :: '=' :: ' ' :: s) = (sid ++ [' '], ' ' :: s) := by
    have harr : sid ++ ' ' :: '=' :: ' ' :: s = (sid ++ [' ']) ++ '=' :: (' ' :: s) := by
      simp
    rw [harr]
    apply splitFirst_append_sep
    intro hm
    rcases List.mem_append.mp hm with hm | hm
    · exact hk.2.2.2.2 hm
    · simp at hm
  have hmem : '=' ∈ pyStrip (sid ++ ' ' :: '=' :: ' ' :: s) := by
    rw [hstrip]
    apply List.mem_append.mpr
    right
    simp
  have hkey : pyStrip (sid ++ [' ']) = sid := by
    rw [pyStrip_append_space (by decide), hk.2.2.1]
  have hval : pyStrip (' ' :: s) = s := by
    rw [pyStrip_cons_space (by decide), hsi]
  rw [skillAssignParts, if_neg (by simp [hnh]), if_neg (by simp [hnc]), if_pos hmem]
  rw [hstrip, hsplit]
  show (if pyStartsWith (pyStrip (sid ++ [' '])) "Skill".data = true ∧
      (pyStrip (sid ++ [' '])).length = 9
    then some (pyStrip (sid ++ [' ']), pyStrip (' ' :: s)) else none) = some (sid, s)
  rw [hkey, hval, if_pos ⟨hk.1, hk.2.1⟩]

/-- Parsing an emitted color-section line `sid ++ "=" ++ v`. -/
theorem skillAssign_color_line {sid v : Str} (hk : goodKey sid)
    (hv : v ≠ []) (hvi : stripInv v) :
    skillAssignParts (sid ++ '=' :: v) = some (sid, v) ∧
    isHeader (sid ++ '=' :: v) = false ∧
    isCommentLine (sid ++ '=' :: v) = false := by
  have hstrip : stripInv (sid ++ '=' :: v) :=
    @stripInv_skill_line sid ['='] v hk hv hvi (by decide)
  obtain ⟨hnh, hnc⟩ := not_header_comment_skill_line hk hstrip
  refine ⟨?_, hnh, hnc⟩
  have hsplit : splitFirst '=' (sid ++ '=' :: v) = (sid, v) :=
    splitFirst_append_sep hk.2.2.2.2 v
  have hmem : '=' ∈ pyStrip (sid ++ '=' :: v) := by
    rw [hstrip]
    apply List.mem_append.mpr
    right
    exact List.mem_cons_self _ _
  rw [skillAssignParts, if_neg (by simp [hnh]), if_neg (by simp [hnc]), if_pos hmem]
  rw [hstrip, hsplit]
  show (if pyStartsWith (pyStrip sid) "Skill".data = true ∧ (pyStrip sid).length = 9
    then some (pyStrip sid, pyStrip v) else none) = some (sid, v)
  rw [hk.2.2.1, hvi, if_pos ⟨hk.1, hk.2.1⟩]

/-- A blank line is ignored by the parser. -/
theorem parseLine_blank (st : PState) : parseLine st [] = st :=
  parseLine_other st [] (by decide) (by decide) (by decide)

/-!  ## Splitting the rebuilt text back into its lines -/

theorem splitOnChar_append_sep {sep : Char} :
    ∀ {s : Str}, sep ∉ s → ∀ t : Str,
      splitOnChar sep (s ++ sep :: t) =
        (s, (splitOnChar sep t).1 :: (splitOnChar sep t).2) := by
  intro s
  induction s with
  | nil =>
    intro _ t
    rw [List.nil_append, splitOnChar]
    simp
  | cons c u ih =>
    intro h t
    have hc : ¬ c = sep := fun hcc => h (hcc ▸ List.mem_cons_self c u)
    rw [List.cons_append, splitOnChar]
    simp only [ih (fun hm => h (List.mem_cons_of_mem c hm)) t, if_neg hc]

theorem joinNL_parts : ∀ N : List Str, N ≠ [] → (∀ l ∈ N, noNL l) →
    (splitOnChar '\n' (joinNL N ++ ['\n'])).1 ::
      (splitOnChar '\n' (joinNL N ++ ['\n'])).2 = N ++ [[]] := by
  intro N
  induction N with
  | nil => intro h _; exact absurd rfl h
  | cons a rest ih =>
    intro _ hnl
    cases rest with
    | nil =>
      rw [joinNL]
      rw [splitOnChar_append_sep (hnl a (List.mem_cons_self a [])) []]
      rfl
    | cons b r =>
      have harr : joinNL (a :: b :: r) ++ ['\n'] = a ++ '\n' :: (joinNL (b :: r) ++ ['\n']) := by
        rw [joinNL]
        simp
      rw [harr, splitOnChar_append_sep (hnl a (List.mem_cons_self a _)) _]
      have ihr := ih (by simp) (fun l hl => hnl l (List.mem_cons_of_mem a hl))
      simp only [List.cons_append]
      rw [ihr]
      simp

theorem pySplitlines_joinNL (N : List Str) (hne : N ≠ []) (hnl : ∀ l ∈ N, noNL l) :
    pySplitlines (joinNL N ++ ['\n']) = N := by
  have htne : joinNL N ++ ['\n'] ≠ [] := by simp
  rw [pySplitlines, if_neg htne]
  have hp := joinNL_parts N hne hnl
  simp only [hp]
  rw [List.getLast?_concat, if_pos rfl, List.dropLast_concat]

theorem rebuildLines_ne_nil (m : Skills) (L : List Str) (h : L ≠ []) :
    rebuildLines m L ≠ [] := by
  cases L with
  | nil => exact absurd rfl h
  | cons l rest =>
    rw [rebuildLines]
    by_cases h1 : isHeader l = true
    · rw [if_pos h1]
      by_cases h2 : secOf l = imageSecName
      · rw [if_pos h2]; simp
      · rw [if_neg h2]
        by_cases h3 : secOf l = colorSecName
        · rw [if_pos h3]; simp
        · rw [if_neg h3]; simp
    · rw [if_neg h1]; simp

theorem splitOnChar_no_sep (sep : Char) :
    ∀ t : Str, (sep ∉ (splitOnChar sep t).1) ∧
      ∀ p ∈ (splitOnChar sep t).2, sep ∉ p := by
  intro t
  induction t with
  | nil => exact ⟨by simp [splitOnChar], by simp [splitOnChar]⟩
  | cons c rest ih =>
    rw [splitOnChar]
    by_cases hc : c = sep
    · rw [if_pos hc]
      refine ⟨by simp, ?_⟩
      intro p hp
      rcases List.mem_cons.mp hp with rfl | hp
      · exact ih.1
      · exact ih.2 p hp
    · rw [if_neg hc]
      refine ⟨?_, ih.2⟩
      intro hm
      rcases List.mem_cons.mp hm with h | h
      · exact hc h.symm
      · exact ih.1 h

theorem pySplitlines_noNL (t : Str) : ∀ l ∈ pySplitlines t, noNL l := by
  intro l hl
  rw [pySplitlines] at hl
  by_cases ht : t = []
  · rw [if_pos ht] at hl
    exact absurd hl (List.not_mem_nil l)
  · rw [if_neg ht] at hl
    have hparts : l ∈ (splitOnChar '\n' t).1 :: (splitOnChar '\n' t).2 := by
      by_cases hlast : ((splitOnChar '\n' t).1 :: (splitOnChar '\n' t).2).getLast? = some [] 
      · rw [if_pos hlast] at hl
        exact List.dropLast_sublist _ |>.subset hl
      · rw [if_neg hlast] at hl
        exact hl
    rcases List.mem_cons.mp hparts with rfl | hp
    · exact (splitOnChar_no_sep '\n' t).1
    · exact (splitOnChar_no_sep '\n' t).2 l hp

/-!  ## Entry-level characterization of the parser steps -/

theorem findEntry_append_single_ne {sk : Skills} {k k' : Str} (d : SkillData)
    (h : k' ≠ k) : findEntry (sk ++ [(k, d)]) k' = findEntry sk k' := by
  induction sk with
  | nil =>
    show findEntry [(k, d)] k' = none
    rw [findEntry, if_neg (fun hc => h hc.symm)]
    rfl
  | cons p rest ih =>
    obtain ⟨k'', d''⟩ := p
    by_cases h2 : k'' = k'
    · rw [List.cons_append, findEntry, findEntry, if_pos h2, if_pos h2]
    · rw [List.cons_append, findEntry, findEntry, if_neg h2, if_neg h2, ih]

theorem ensure_getEntry (sk : Skills) (k : Str) :
    getEntry (if (findEntry sk k).isSome then sk else sk ++ [(k, defaultSkill)]) k
      = getEntry sk k := by
  by_cases h : (findEntry sk k).isSome
  · rw [if_pos h]
  · rw [if_neg h, getEntry, getEntry, findEntry_append_fresh _ _ _ (by simpa using h)]
    have h2 : findEntry sk k = none := by
      cases hf : findEntry sk k with
      | none => rfl
      | some d => rw [hf] at h; simp at h
    rw [h2]
    rfl

theorem ensure_getEntry_ne (sk : Skills) (k : Str) {k' : Str} (h : k' ≠ k) :
    getEntry (if (findEntry sk k).isSome then sk else sk ++ [(k, defaultSkill)]) k'
      = getEntry sk k' := by
  by_cases hf : (findEntry sk k).isSome
  · rw [if_pos hf]
  · rw [if_neg hf, getEntry, getEntry, findEntry_append_single_ne _ h]

theorem ensure_findEntry_isSome (sk : Skills) (k : Str) :
    (findEntry (if (findEntry sk k).isSome then sk else sk ++ [(k, defaultSkill)]) k).isSome
      = true := by
  by_cases h : (findEntry sk k).isSome
  · rw [if_pos h]
    exact h
  · rw [if_neg h, findEntry_append_fresh _ _ _ (by simpa using h)]
    rfl

theorem getEntry_updateEntry_of_isSome {sk : Skills} {k : Str} (f : SkillData → SkillData)
    (h : (findEntry sk k).isSome = true) :
    getEntry (updateEntry sk k f) k = f (getEntry sk k) := by
  obtain ⟨d, hd⟩ := Option.isSome_iff_exists.mp h
  rw [getEntry, getEntry, findEntry_updateEntry, hd]
  rfl

theorem getEntry_updateEntry_ne {sk : Skills} {k k' : Str} (f : SkillData → SkillData)
    (h : k' ≠ k) :
    getEntry (updateEntry sk k f) k' = getEntry sk k' := by
  rw [getEntry, getEntry, findEntry_updateEntry_ne _ f h]

theorem skillStep_sec (st : PState) (k v : Str) : (skillStep st k v).sec = st.sec := rfl

theorem skillStep_lastComment (st : PState) (k v : Str) :
    (skillStep st k v).lastComment =
      (if st.sec = some colorSecName ∧ optTruthy st.lastComment then none
       else st.lastComment) := rfl

theorem skillStep_keys (st : PState) (k v : Str) :
    keysOf (skillStep st k v).skills =
      (if (findEntry st.skills k).isSome then keysOf st.skills
       else keysOf st.skills ++ [k]) := by
  simp only [skillStep]
  by_cases hc : st.sec = some colorSecName
  · rw [if_pos hc, if_neg (by rw [hc]; decide), keysOf_updateEntry]
    by_cases hf : (findEntry st.skills k).isSome
    · rw [if_pos hf, if_pos hf]
    · rw [if_neg hf, if_neg hf, keysOf, keysOf, List.map_append]
      rfl
  · rw [if_neg hc]
    by_cases hi : st.sec = some imageSecName
    · rw [if_pos hi, keysOf_updateEntry]
      by_cases hf : (findEntry st.skills k).isSome
      · rw [if_pos hf, if_pos hf]
      · rw [if_neg hf, if_neg hf, keysOf, keysOf, List.map_append]
        rfl
    · rw [if_neg hi]
      by_cases hf : (findEntry st.skills k).isSome
      · rw [if_pos hf, if_pos hf]
      · rw [if_neg hf, if_neg hf, keysOf, keysOf, List.map_append]
        rfl

theorem skillStep_getEntry_color_char (st : PState) (k v : Str)
    (hsec : st.sec = some colorSecName) :
    getEntry (skillStep st k v).skills k =
      (if optTruthy st.lastComment = true
       then { getEntry st.skills k with color := some v, comment := st.lastComment }
       else { getEntry st.skills k with color := some v }) ∧
    (∀ k', k' ≠ k → getEntry (skillStep st k v).skills k' = getEntry st.skills k') := by
  obtain ⟨sk, sc, lc⟩ := st
  obtain rfl : sc = some colorSecName := hsec
  have hne := eq_false (show ¬ (some colorSecName = some imageSecName) by decide)
  simp only [skillStep, hne, if_false, eq_self_iff_true, if_true]
  constructor
  · rw [getEntry_updateEntry_of_isSome _ (ensure_findEntry_isSome sk k), ensure_getEntry]
  · intro k' hk'
    rw [getEntry_updateEntry_ne _ hk', ensure_getEntry_ne sk k hk']

theorem skillStep_getEntry_image_char (st : PState) (k v : Str)
    (hsec : st.sec = some imageSecName) :
    getEntry (skillStep st k v).skills k =
      { getEntry st.skills k with image := some v } ∧
    (∀ k', k' ≠ k → getEntry (skillStep st k v).skills k' = getEntry st.skills k') := by
  obtain ⟨sk, sc, lc⟩ := st
  obtain rfl : sc = some imageSecName := hsec
  have hne := eq_false (show ¬ (some imageSecName = some colorSecName) by decide)
  simp only [skillStep, hne, if_false, eq_self_iff_true, if_true]
  constructor
  · rw [getEntry_updateEntry_of_isSome _ (ensure_findEntry_isSome sk k), ensure_getEntry]
  · intro k' hk'
    rw [getEntry_updateEntry_ne _ hk', ensure_getEntry_ne sk k hk']

theorem skillStep_getEntry_unmanaged (st : PState) (k v : Str)
    (hc : st.sec ≠ some colorSecName) (hi : st.sec ≠ some imageSecName) :
    ∀ k', getEntry (skillStep st k v).skills k' = getEntry st.skills k' := by
  intro k'
  simp only [skillStep, if_neg hc, if_neg hi]
  by_cases hk' : k' = k
  · subst hk'
    exact ensure_getEntry st.skills k'
  · exact ensure_getEntry_ne st.skills k hk'

/-!  ## Monotonicity and locality of the parser fold -/

theorem parseLine_cases (st : PState) (line : Str) :
    (isHeader line = true ∧
        parseLine st line = { st with sec := some (secOf line), lastComment := none }) ∨
    (isHeader line = false ∧ isCommentLine line = true ∧
        parseLine st line = { st with lastComment := some line }) ∨
    (isHeader line = false ∧ isCommentLine line = false ∧
        ∃ k v, skillAssignParts line = some (k, v) ∧ parseLine st line = skillStep st k v) ∨
    (isHeader line = false ∧ isCommentLine line = false ∧
        skillAssignParts line = none ∧ parseLine st line = st) := by
  by_cases h1 : isHeader line = true
  · exact Or.inl ⟨h1, parseLine_header st line h1⟩
  replace h1 : isHeader line = false := by simpa using h1
  by_cases h2 : isCommentLine line = true
  · exact Or.inr (Or.inl ⟨h1, h2, parseLine_comment st line h1 h2⟩)
  replace h2 : isCommentLine line = false := by simpa using h2
  cases hkv : skillAssignParts line with
  | none => exact Or.inr (Or.inr (Or.inr ⟨h1, h2, rfl, parseLine_other st line h1 h2 hkv⟩))
  | some kv =>
    obtain ⟨k0, v0⟩ := kv
    exact Or.inr (Or.inr (Or.inl ⟨h1, h2, k0, v0, rfl, parseLine_skill st line k0 v0 hkv⟩))

theorem parseLine_keys_mono (st : PState) (line : Str) {k : Str}
    (h : k ∈ keysOf st.skills) : k ∈ keysOf (parseLine st line).skills := by
  rcases parseLine_cases st line with ⟨-, he⟩ | ⟨-, -, he⟩ | ⟨-, -, k0, v0, -, he⟩ |
    ⟨-, -, -, he⟩ <;> rw [he]
  · exact h
  · exact h
  · rw [skillStep_keys]
    by_cases hf : (findEntry st.skills k0).isSome
    · rw [if_pos hf]; exact h
    · rw [if_neg hf]; exact List.mem_append.mpr (Or.inl h)
  · exact h

theorem foldl_keys_mono (lines : List Str) : ∀ (st : PState) {k : Str},
    k ∈ keysOf st.skills → k ∈ keysOf ((lines.foldl parseLine st)).skills := by
  induction lines with
  | nil => exact fun st _ h => h
  | cons l rest ih =>
    intro st k h
    rw [List.foldl_cons]
    exact ih _ (parseLine_keys_mono st l h)

theorem skillStep_color_isSome_mono (st : PState) (k0 v : Str) {k : Str}
    (h : (getEntry st.skills k).color.isSome = true) :
    (getEntry (skillStep st k0 v).skills k).color.isSome = true := by
  by_cases hcs : st.sec = some colorSecName
  · by_cases hk : k = k0
    · subst hk
      rw [skillStep_getEntry_color st k v hcs]
      rfl
    · rw [(skillStep_getEntry_color_char st k0 v hcs).2 k hk]
      exact h
  · by_cases his : st.sec = some imageSecName
    · by_cases hk : k = k0
      · subst hk
        rw [(skillStep_getEntry_image_char st k v his).1]
        exact h
      · rw [(skillStep_getEntry_image_char st k0 v his).2 k hk]
        exact h
    · rw [skillStep_getEntry_unmanaged st k0 v hcs his k]
      exact h

theorem parseLine_color_isSome_mono (st : PState) (line : Str) {k : Str}
    (h : (getEntry st.skills k).color.isSome = true) :
    (getEntry (parseLine st line).skills k).color.isSome = true := by
  rcases parseLine_cases st line with ⟨-, he⟩ | ⟨-, -, he⟩ | ⟨-, -, k0, v0, -, he⟩ |
    ⟨-, -, -, he⟩ <;> rw [he]
  · exact h
  · exact h
  · exact skillStep_color_isSome_mono st k0 v0 h
  · exact h

theorem foldl_color_isSome_mono (lines : List Str) : ∀ (st : PState) {k : Str},
    (getEntry st.skills k).color.isSome = true →
    (getEntry ((lines.foldl parseLine st)).skills k).color.isSome = true := by
  induction lines with
  | nil => exact fun st _ h => h
  | cons l rest ih =>
    intro st k h
    rw [List.foldl_cons]
    exact ih _ (parseLine_color_isSome_mono st l h)

theorem parseLine_keys_origin (st : PState) (line : Str) {k : Str}
    (h : k ∈ keysOf (parseLine st line).skills) :
    k ∈ keysOf st.skills ∨ ∃ v, skillAssignParts line = some (k, v) := by
  rcases parseLine_cases st line with ⟨-, he⟩ | ⟨-, -, he⟩ | ⟨-, -, k0, v0, hkv, he⟩ |
    ⟨-, -, -, he⟩ <;> rw [he] at h
  · exact Or.inl h
  · exact Or.inl h
  · rw [skillStep_keys] at h
    by_cases hf : (findEntry st.skills k0).isSome
    · rw [if_pos hf] at h
      exact Or.inl h
    · rw [if_neg hf] at h
      rcases List.mem_append.mp h with h | h
      · exact Or.inl h
      · rw [List.mem_singleton] at h
        subst h
        exact Or.inr ⟨v0, hkv⟩
  · exact Or.inl h

theorem foldl_keys_origin (lines : List Str) : ∀ (st : PState) {k : Str},
    k ∈ keysOf ((lines.foldl parseLine st)).skills →
    k ∈ keysOf st.skills ∨ ∃ l ∈ lines, ∃ v, skillAssignParts l = some (k, v) := by
  induction lines with
  | nil => exact fun st _ h => Or.inl h
  | cons l rest ih =>
    intro st k h
    rw [List.foldl_cons] at h
    rcases ih _ h with h2 | ⟨l', hl', hv⟩
    · rcases parseLine_keys_origin st l h2 with h3 | h3
      · exact Or.inl h3
      · exact Or.inr ⟨l, List.mem_cons_self l rest, h3⟩
    · exact Or.inr ⟨l', List.mem_cons_of_mem l hl', hv⟩

theorem parseLine_no_color_write (st : PState) (line : Str)
    (hl : ¬(isHeader line = true ∧ secOf line = colorSecName))
    (hsec : st.sec ≠ some colorSecName) :
    (parseLine st line).sec ≠ some colorSecName ∧
    ∀ k, (getEntry (parseLine st line).skills k).color = (getEntry st.skills k).color ∧
      (getEntry (parseLine st line).skills k).comment = (getEntry st.skills k).comment := by
  rcases parseLine_cases st line with ⟨hh, he⟩ | ⟨-, -, he⟩ | ⟨-, -, k0, v0, -, he⟩ |
    ⟨-, -, -, he⟩ <;> rw [he]
  · refine ⟨?_, fun k => ⟨rfl, rfl⟩⟩
    intro hc
    simp only [Option.some.injEq] at hc
    exact hl ⟨hh, hc⟩
  · exact ⟨hsec, fun k => ⟨rfl, rfl⟩⟩
  · refine ⟨by rw [skillStep_sec]; exact hsec, fun k => ?_⟩
    by_cases his : st.sec = some imageSecName
    · by_cases hk : k = k0
      · subst hk
        rw [(skillStep_getEntry_image_char st k v0 his).1]
        exact ⟨rfl, rfl⟩
      · rw [(skillStep_getEntry_image_char st k0 v0 his).2 k hk]
        exact ⟨rfl, rfl⟩
    · rw [skillStep_getEntry_unmanaged st k0 v0 hsec his k]
      exact ⟨rfl, rfl⟩
  · exact ⟨hsec, fun k => ⟨rfl, rfl⟩⟩

theorem parse_no_color_writes (lines : List Str) : ∀ st : PState,
    (∀ l ∈ lines, ¬(isHeader l = true ∧ secOf l = colorSecName)) →
    st.sec ≠ some colorSecName →
    (lines.foldl parseLine st).sec ≠ some colorSecName ∧
    ∀ k, (getEntry ((lines.foldl parseLine st)).skills k).color = (getEntry st.skills k).color ∧
      (getEntry ((lines.foldl parseLine st)).skills k).comment =
        (getEntry st.skills k).comment := by
  induction lines with
  | nil => exact fun st _ hsec => ⟨hsec, fun k => ⟨rfl, rfl⟩⟩
  | cons l rest ih =>
    intro st hall hsec
    rw [List.foldl_cons]
    obtain ⟨h1, h2⟩ := parseLine_no_color_write st l (hall l (List.mem_cons_self l rest)) hsec
    obtain ⟨h3, h4⟩ := ih (parseLine st l) (fun x hx => hall x (List.mem_cons_of_mem l hx)) h1
    refine ⟨h3, fun k => ?_⟩
    rw [(h4 k).1, (h4 k).2, (h2 k).1, (h2 k).2]
    exact ⟨rfl, rfl⟩

theorem parseLine_no_image_write (st : PState) (line : Str)
    (hl : ¬(isHeader line = true ∧ secOf line = imageSecName))
    (hsec : st.sec ≠ some imageSecName) :
    (parseLine st line).sec ≠ some imageSecName ∧
    ∀ k, (getEntry (parseLine st line).skills k).image = (getEntry st.skills k).image := by
  rcases parseLine_cases st line with ⟨hh, he⟩ | ⟨-, -, he⟩ | ⟨-, -, k0, v0, -, he⟩ |
    ⟨-, -, -, he⟩ <;> rw [he]
  · refine ⟨?_, fun k => rfl⟩
    intro hc
    simp only [Option.some.injEq] at hc
    exact hl ⟨hh, hc⟩
  · exact ⟨hsec, fun k => rfl⟩
  · refine ⟨by rw [skillStep_sec]; exact hsec, fun k => ?_⟩
    by_cases hcs : st.sec = some colorSecName
    · by_cases hk : k = k0
      · subst hk
        rw [(skillStep_getEntry_color_char st k v0 hcs).1]
        by_cases hcm : optTruthy st.lastComment = true
        · rw [if_pos hcm]
        · rw [if_neg hcm]
      · rw [(skillStep_getEntry_color_char st k0 v0 hcs).2 k hk]
    · rw [skillStep_getEntry_unmanaged st k0 v0 hcs hsec k]
  · exact ⟨hsec, fun k => rfl⟩

theorem parse_no_image_writes (lines : List Str) : ∀ st : PState,
    (∀ l ∈ lines, ¬(isHeader l = true ∧ secOf l = imageSecName)) →
    st.sec ≠ some imageSecName →
    (lines.foldl parseLine st).sec ≠ some imageSecName ∧
    ∀ k, (getEntry ((lines.foldl parseLine st)).skills k).image =
      (getEntry st.skills k).image := by
  induction lines with
  | nil => exact fun st _ hsec => ⟨hsec, fun k => rfl⟩
  | cons l rest ih =>
    intro st hall hsec
    rw [List.foldl_cons]
    obtain ⟨h1, h2⟩ := parseLine_no_image_write st l (hall l (List.mem_cons_self l rest)) hsec
    obtain ⟨h3, h4⟩ := ih (parseLine st l) (fun x hx => hall x (List.mem_cons_of_mem l hx)) h1
    refine ⟨h3, fun k => ?_⟩
    rw [h4 k, h2 k]

/-!  ## Well-formedness of the parsed and inferred mapping -/

theorem splitFirst_fst_no_sep (sep : Char) : ∀ s : Str, sep ∉ (splitFirst sep s).1 := by
  intro s
  induction s with
  | nil => simp [splitFirst]
  | cons c rest ih =>
    rw [splitFirst]
    by_cases hc : c = sep
    · rw [if_pos hc]
      simp
    · rw [if_neg hc]
      intro hm
      rcases List.mem_cons.mp hm with h | h
      · exact hc h.symm
      · exact ih h

theorem mem_splitFirst_fst {sep a : Char} : ∀ {s : Str}, a ∈ (splitFirst sep s).1 → a ∈ s := by
  intro s
  induction s with
  | nil => intro h; simp [splitFirst] at h
  | cons c rest ih =>
    intro h
    rw [splitFirst] at h
    by_cases hc : c = sep
    · rw [if_pos hc] at h
      exact absurd h (List.not_mem_nil a)
    · rw [if_neg hc] at h
      rcases List.mem_cons.mp h with h | h
      · exact h ▸ List.mem_cons_self a rest
      · exact List.mem_cons_of_mem c (ih h)

theorem mem_splitFirst_snd {sep a : Char} : ∀ {s : Str}, a ∈ (splitFirst sep s).2 → a ∈ s := by
  intro s
  induction s with
  | nil => intro h; simp [splitFirst] at h
  | cons c rest ih =>
    intro h
    rw [splitFirst] at h
    by_cases hc : c = sep
    · rw [if_pos hc] at h
      exact List.mem_cons_of_mem c h
    · rw [if_neg hc] at h
      exact List.mem_cons_of_mem c (ih h)

/-- The key and value accepted from a line are stripped, `\n`-free and
the key passes the skill test. -/
theorem skillAssignParts_good {line k v : Str} (hn : noNL line)
    (h : skillAssignParts line = some (k, v)) :
    goodKey k ∧ stripInv v ∧ noNL v := by
  simp only [skillAssignParts] at h
  by_cases h1 : isHeader line = true
  · rw [if_pos h1] at h
    exact absurd h (by simp)
  rw [if_neg h1] at h
  by_cases h2 : isCommentLine line = true
  · rw [if_pos h2] at h
    exact absurd h (by simp)
  rw [if_neg h2] at h
  by_cases h3 : '=' ∈ pyStrip line
  · rw [if_pos h3] at h
    by_cases h4 : pyStartsWith (pyStrip (splitFirst '=' (pyStrip line)).1) "Skill".data
        = true ∧ (pyStrip (splitFirst '=' (pyStrip line)).1).length = 9
    · rw [if_pos h4] at h
      simp only [Option.some.injEq, Prod.mk.injEq] at h
      obtain ⟨hk, hv⟩ := h
      subst hk
      subst hv
      refine ⟨⟨h4.1, h4.2, pyStrip_idem _, ?_, ?_⟩, pyStrip_idem _, ?_⟩
      · intro hm
        exact hn (mem_pyStrip (mem_splitFirst_fst (mem_pyStrip hm)))
      · intro hm
        exact splitFirst_fst_no_sep '=' (pyStrip line) (mem_pyStrip hm)
      · intro hm
        exact hn (mem_pyStrip (mem_splitFirst_snd (mem_pyStrip hm)))
    · rw [if_neg h4] at h
      exact absurd h (by simp)
  · rw [if_neg h3] at h
    exact absurd h (by simp)

/-- The per-entry invariant established by the parser. -/
def parseGoodData (d : SkillData) : Prop :=
  (d.comment = none ∨ ∃ c, d.comment = some c ∧ isCommentLine c = true ∧ noNL c ∧
      d.color.isSome = true) ∧
  (d.image = none ∨ ∃ s, d.image = some s ∧ stripInv s ∧ noNL s) ∧
  (d.color = none ∨ ∃ v, d.color = some v ∧ stripInv v ∧ noNL v)

/-- The dict invariant established by the parser. -/
def parseGood (m : Skills) : Prop :=
  (keysOf m).Nodup ∧ ∀ p ∈ m, goodKey p.1 ∧ parseGoodData p.2

/-- The loop-state invariant of the parser. -/
def stGood (st : PState) : Prop :=
  parseGood st.skills ∧
  (st.lastComment = none ∨ ∃ c, st.lastComment = some c ∧ isCommentLine c = true ∧ noNL c)

theorem parseGoodData_default : parseGoodData defaultSkill :=
  ⟨Or.inl rfl, Or.inl rfl, Or.inl rfl⟩

theorem mem_updateEntry {m : Skills} {k : Str} {f : SkillData → SkillData} {p : Str × SkillData}
    (h : p ∈ updateEntry m k f) :
    ∃ q ∈ m, p = (if q.1 = k then (q.1, f q.2) else q) := by
  obtain ⟨q, hq, he⟩ := List.mem_map.mp h
  exact ⟨q, hq, he.symm⟩

theorem skillStep_stGood (st : PState) (k v : Str)
    (hst : stGood st) (hk : goodKey k) (hv : stripInv v) (hvn : noNL v) :
    stGood (skillStep st k v) := by
  have hm0 : parseGood (if (findEntry st.skills k).isSome then st.skills
      else st.skills ++ [(k, defaultSkill)]) := by
    by_cases hf : (findEntry st.skills k).isSome
    · rw [if_pos hf]
      exact hst.1
    · rw [if_neg hf]
      constructor
      · rw [keysOf, List.map_append]
        refine List.Nodup.append hst.1.1 (List.nodup_singleton _) ?_
        intro a ha hb
        simp only [List.map_cons, List.map_nil, List.mem_singleton] at hb
        subst hb
        have ha2 : a ∈ keysOf st.skills := ha
        rw [← findEntry_isSome_iff] at ha2
        exact (by simpa using hf : ¬ _) ha2
      · intro p hp
        rcases List.mem_append.mp hp with hp | hp
        · exact hst.1.2 p hp
        · rw [List.mem_singleton] at hp
          subst hp
          exact ⟨hk, parseGoodData_default⟩
  constructor
  · show parseGood (skillStep st k v).skills
    simp only [skillStep]
    by_cases hcs : st.sec = some colorSecName
    · rw [if_pos hcs, if_neg (by rw [hcs]; decide)]
      constructor
      · rw [keysOf_updateEntry]
        exact hm0.1
      · intro p hp
        obtain ⟨q, hq, he⟩ := mem_updateEntry hp
        by_cases hqk : q.1 = k
        · rw [if_pos hqk] at he
          subst he
          by_cases hcm : optTruthy st.lastComment = true
          · rw [if_pos hcm]
            refine ⟨(hm0.2 q hq).1, ?_, (hm0.2 q hq).2.2.1, Or.inr ⟨v, rfl, hv, hvn⟩⟩
            rcases hst.2 with hlc | ⟨c, hlc, hc1, hc2⟩
            · rw [hlc] at hcm
              exact absurd hcm (by decide)
            · exact Or.inr ⟨c, hlc, hc1, hc2, rfl⟩
          · rw [if_neg hcm]
            refine ⟨(hm0.2 q hq).1, ?_, (hm0.2 q hq).2.2.1, Or.inr ⟨v, rfl, hv, hvn⟩⟩
            rcases (hm0.2 q hq).2.1 with hc | ⟨c, hc1, hc2, hc3, -⟩
            · exact Or.inl hc
            · exact Or.inr ⟨c, hc1, hc2, hc3, rfl⟩
        · rw [if_neg hqk] at he
          rw [he]
          exact hm0.2 q hq
    · rw [if_neg hcs]
      by_cases his : st.sec = some imageSecName
      · rw [if_pos his]
        constructor
        · rw [keysOf_updateEntry]
          exact hm0.1
        · intro p hp
          obtain ⟨q, hq, he⟩ := mem_updateEntry hp
          by_cases hqk : q.1 = k
          · rw [if_pos hqk] at he
            subst he
            refine ⟨(hm0.2 q hq).1, ?_, Or.inr ⟨v, rfl, hv, hvn⟩, (hm0.2 q hq).2.2.2⟩
            rcases (hm0.2 q hq).2.1 with hc | ⟨c, hc1, hc2, hc3, hc4⟩
            · exact Or.inl hc
            · exact Or.inr ⟨c, hc1, hc2, hc3, hc4⟩
          · rw [if_neg hqk] at he
            rw [he]
            exact hm0.2 q hq
      · rw [if_neg his]
        exact hm0
  · show (skillStep st k v).lastComment = none ∨ _
    rw [skillStep_lastComment]
    by_cases hcl : st.sec = some colorSecName ∧ optTruthy st.lastComment = true
    · rw [if_pos (by exact ⟨hcl.1, hcl.2⟩)]
      exact Or.inl rfl
    · rw [if_neg (by exact fun hc => hcl ⟨hc.1, hc.2⟩)]
      exact hst.2

theorem parseLine_stGood (st : PState) (line : Str) (hn : noNL line)
    (hst : stGood st) : stGood (parseLine st line) := by
  rcases parseLine_cases st line with ⟨-, he⟩ | ⟨-, hcm, he⟩ | ⟨-, -, k0, v0, hkv, he⟩ |
    ⟨-, -, -, he⟩ <;> rw [he]
  · exact ⟨hst.1, Or.inl rfl⟩
  · exact ⟨hst.1, Or.inr ⟨line, rfl, hcm, hn⟩⟩
  · obtain ⟨hk, hv, hvn⟩ := skillAssignParts_good hn hkv
    exact skillStep_stGood st k0 v0 hst hk hv hvn
  · exact hst

theorem parse_stGood (lines : List Str) : ∀ st : PState,
    (∀ l ∈ lines, noNL l) → stGood st → stGood (lines.foldl parseLine st) := by
  induction lines with
  | nil => exact fun st _ h => h
  | cons l rest ih =>
    intro st hnl hst
    rw [List.foldl_cons]
    exact ih _ (fun x hx => hnl x (List.mem_cons_of_mem l hx))
      (parseLine_stGood st l (hnl l (List.mem_cons_self l rest)) hst)

theorem stGood_init : stGood initState :=
  ⟨⟨List.nodup_nil, fun p hp => absurd hp (List.not_mem_nil p)⟩, Or.inl rfl⟩

theorem parse_ini_parseGood (text : Str) : parseGood (parse_ini text).2 :=
  (parse_stGood (pySplitlines text) initState (pySplitlines_noNL text) stGood_init).1

/-!  ## The inferred mapping is fully well-formed -/

/-- The per-entry invariant of the mapping after `apply_filename_rules`
on well-formed input: the image is a truthy stripped string, a comment
entails a truthy color, and colors are truthy stripped strings. -/
def goodData (d : SkillData) : Prop :=
  (∃ s, d.image = some s ∧ s ≠ [] ∧ stripInv s ∧ noNL s) ∧
  (d.comment = none ∨ ∃ c, d.comment = some c ∧ isCommentLine c = true ∧ noNL c ∧
      optTruthy d.color = true) ∧
  (d.color = none ∨ ∃ v, d.color = some v ∧ v ≠ [] ∧ stripInv v ∧ noNL v)

/-- The dict invariant of the inferred mapping. -/
def goodMap (m : Skills) : Prop :=
  (keysOf m).Nodup ∧ ∀ p ∈ m, goodKey p.1 ∧ goodData p.2

/-- Well-formed input per the file-format contract: every color value
stored by the parser is a valid stored color. -/
def colorsWellFormed (text : Str) : Bool :=
  (parse_ini text).2.all (fun p =>
    match p.2.color with
    | none => true
    | some v => specValidStoredColor v)

theorem specValidStoredColor_ne_nil {v : Str} (h : specValidStoredColor v = true) :
    v ≠ [] := by
  intro hv
  rw [hv] at h
  exact absurd h (by decide)

theorem noNL_bmp : noNL ".bmp".data := by
  intro h
  exact absurd h (by decide)

theorem stripInv_lower_bmp {a : Str} (ha : stripInv a) :
    stripInv (pyLower a ++ ".bmp".data) ∧ (pyLower a ++ ".bmp".data) ≠ [] ∧
      (noNL a → noNL (pyLower a ++ ".bmp".data)) := by
  refine ⟨?_, by simp, ?_⟩
  · apply pyStrip_eq_self
    · intro c hc
      cases a with
      | nil =>
        simp only [pyLower, List.map_nil, List.nil_append] at hc
        have : c = '.' := by
          have := hc
          simp at this
          exact this.symm
        rw [this]
        decide
      | cons x t =>
        simp only [pyLower, List.map_cons, List.cons_append, List.head?_cons,
          Option.some.injEq] at hc
        subst hc
        rw [pySpace_pyLowerChar]
        exact stripInv_head_not_space ha x rfl
    · intro c hc
      rw [getLast?_append_right (by decide)] at hc
      have : c = 'p' := by
        have := hc
        simp at this
        exact this.symm
      rw [this]
      decide
  · intro hn hm
    rcases List.mem_append.mp hm with hm | hm
    · obtain ⟨x, hx, hlx⟩ := List.mem_map.mp hm
      exact hn (pyLowerChar_newline hlx ▸ hx)
    · exact absurd hm (by decide)

theorem goodMap_of_infer (m : Skills) (hpg : parseGood m)
    (hwf : ∀ p ∈ m, p.2.color = none ∨ ∃ v, p.2.color = some v ∧ v ≠ []) :
    goodMap (apply_filename_rules m) := by
  constructor
  · have : keysOf (apply_filename_rules m) = keysOf m := by
      rw [keysOf, keysOf, apply_filename_rules, List.map_map]
      rfl
    rw [this]
    exact hpg.1
  · intro p hp
    obtain ⟨q, hq, he⟩ := List.mem_map.mp hp
    obtain ⟨hk, hcmt, himg, hcol⟩ :
        goodKey q.1 ∧ _ ∧ _ ∧ _ := ⟨(hpg.2 q hq).1, (hpg.2 q hq).2.1,
          (hpg.2 q hq).2.2.1, (hpg.2 q hq).2.2.2⟩
    have hcolor' : q.2.color = none ∨
        ∃ v, q.2.color = some v ∧ v ≠ [] ∧ stripInv v ∧ noNL v := by
      rcases hwf q hq with h | ⟨v, hv, hvn⟩
      · exact Or.inl h
      · rcases hcol with h2 | ⟨v2, hv2, hv3, hv4⟩
        · rw [h2] at hv
          exact absurd hv (by simp)
        · rw [hv] at hv2
          simp only [Option.some.injEq] at hv2
          subst hv2
          exact Or.inr ⟨v, hv, hvn, hv3, hv4⟩
    have hct : q.2.comment = none ∨ ∃ c, q.2.comment = some c ∧ isCommentLine c = true ∧
        noNL c ∧ optTruthy q.2.color = true := by
      rcases hcmt with h | ⟨c, hc1, hc2, hc3, hc4⟩
      · exact Or.inl h
      · refine Or.inr ⟨c, hc1, hc2, hc3, ?_⟩
        rcases hcolor' with h2 | ⟨v, hv1, hv2, -, -⟩
        · rw [h2] at hc4
          exact absurd hc4 (by decide)
        · rw [hv1]
          cases v with
          | nil => exact absurd rfl hv2
          | cons a t => rfl
    rw [← he]
    refine ⟨hk, ?_⟩
    rw [inferImage]
    by_cases hti : optTruthy q.2.image = true
    · rw [if_pos hti]
      refine ⟨?_, hct, hcolor'⟩
      rcases himg with h | ⟨s, hs1, hs2, hs3⟩
      · rw [h] at hti
        exact absurd hti (by decide)
      · refine ⟨s, hs1, ?_, hs2, hs3⟩
        rw [hs1] at hti
        intro hnil
        subst hnil
        exact absurd hti (by decide)
    · rw [if_neg hti]
      by_cases hcc : optTruthy q.2.comment = true ∧ '#' ∈ q.2.comment.getD []
      · rw [if_pos hcc]
        have hs := stripInv_lower_bmp (pyStrip_idem (splitFirst '#' (q.2.comment.getD [])).2)
        refine ⟨⟨_, rfl, hs.2.1, hs.1, ?_⟩, hct, hcolor'⟩
        apply hs.2.2
        apply noNL_pyStrip
        intro hm
        have hmm := mem_splitFirst_snd hm
        rcases hct with h | ⟨c, hc1, hc2, hc3, -⟩
        · rw [h] at hcc
          exact absurd hcc.1 (by decide)
        · rw [hc1] at hmm
          exact hc3 hmm
      · rw [if_neg hcc]
        have hs := stripInv_lower_bmp hk.2.2.1
        refine ⟨⟨_, rfl, hs.2.1, hs.1, hs.2.2 hk.2.2.2.1⟩, hct, hcolor'⟩

theorem goodMap_m1 (text : Str) (hwf : colorsWellFormed text = true) :
    goodMap (apply_filename_rules (parse_ini text).2) := by
  apply goodMap_of_infer _ (parse_ini_parseGood text)
  intro p hp
  rw [colorsWellFormed, List.all_eq_true] at hwf
  have := hwf p hp
  cases hc : p.2.color with
  | none => exact Or.inl rfl
  | some v =>
    rw [hc] at this
    exact Or.inr ⟨v, rfl, specValidStoredColor_ne_nil (by simpa using this)⟩

/-!  ## Parsing the regenerated managed bodies -/

theorem findEntry_mem {m : Skills} {k : Str} {d : SkillData}
    (h : findEntry m k = some d) : (k, d) ∈ m := by
  induction m with
  | nil => exact absurd h (by rw [findEntry]; simp)
  | cons p rest ih =>
    obtain ⟨k', d'⟩ := p
    by_cases hk : k' = k
    · subst hk
      rw [findEntry, if_pos rfl] at h
      simp only [Option.some.injEq] at h
      subst h
      exact List.mem_cons_self _ _
    · rw [findEntry, if_neg hk] at h
      exact List.mem_cons_of_mem _ (ih h)

theorem goodMap_getEntry {m : Skills} (hg : goodMap m) {k : Str} (hk : k ∈ keysOf m) :
    goodKey k ∧ goodData (getEntry m k) := by
  rw [← findEntry_isSome_iff] at hk
  obtain ⟨d, hd⟩ := Option.isSome_iff_exists.mp hk
  have : getEntry m k = d := by rw [getEntry, hd]; rfl
  rw [this]
  exact hg.2 (k, d) (findEntry_mem hd)

theorem image_line_eq (sid s : Str) : sid ++ " = ".data ++ s = sid ++ ' ' :: '=' :: ' ' :: s := by
  rw [List.append_assoc]
  rfl

theorem color_line_eq (sid v : Str) : sid ++ "=".data ++ v = sid ++ '=' :: v := by
  rw [List.append_assoc]
  rfl

theorem skillStep_mem_key (st : PState) (k v : Str) :
    k ∈ keysOf (skillStep st k v).skills := by
  rw [skillStep_keys]
  by_cases hf : (findEntry st.skills k).isSome
  · rw [if_pos hf]
    rw [← findEntry_isSome_iff]
    exact hf
  · rw [if_neg hf]
    exact List.mem_append.mpr (Or.inr (List.mem_singleton.mpr rfl))

theorem skillStep_keys_origin (st : PState) (k0 v : Str) {k : Str}
    (h : k ∈ keysOf (skillStep st k0 v).skills) : k ∈ keysOf st.skills ∨ k = k0 := by
  rw [skillStep_keys] at h
  by_cases hf : (findEntry st.skills k0).isSome
  · rw [if_pos hf] at h
    exact Or.inl h
  · rw [if_neg hf] at h
    rcases List.mem_append.mp h with h | h
    · exact Or.inl h
    · exact Or.inr (List.mem_singleton.mp h)

/-- The effect of one regenerated image-section entry on the parse. -/
theorem foldl_oneImageEntry (m1 : Skills) (hGM : goodMap m1) (sid : Str)
    (hsid : sid ∈ keysOf m1) (st : PState) (_hsec : st.sec = some imageSecName) :
    ((entryImageLines sid (getEntry m1 sid)).foldl parseLine st).sec = st.sec ∧
    ((entryImageLines sid (getEntry m1 sid)).foldl parseLine st).skills =
      (let st1 : PState :=
        if optTruthy (getEntry m1 sid).comment
        then { st with lastComment := (getEntry m1 sid).comment }
        else st
       (skillStep st1 sid (fmtOptStr (getEntry m1 sid).image)).skills) := by
  obtain ⟨hk, hgd⟩ := goodMap_getEntry hGM hsid
  obtain ⟨s, hs1, hs2, hs3, hs4⟩ := hgd.1
  have himgline := skillAssign_image_line hk hs2 hs3
  have hline : sid ++ " = ".data ++ fmtOptStr (getEntry m1 sid).image =
      sid ++ ' ' :: '=' :: ' ' :: s := by
    rw [hs1]
    exact image_line_eq sid s
  rw [entryImageLines, hline]
  by_cases hc : optTruthy (getEntry m1 sid).comment = true
  · rw [if_pos hc]
    rcases hgd.2.1 with hcn | ⟨c, hc1, hc2, hc3, -⟩
    · rw [hcn] at hc
      exact absurd hc (by decide)
    · have hcf := isCommentLine_facts hc2
      rw [hc1]
      simp only [Option.getD_some, List.cons_append, List.singleton_append, List.nil_append]
      rw [List.foldl_cons, parseLine_comment st c hcf.1 hc2, List.foldl_cons,
        parseLine_skill _ _ sid s himgline.1, List.foldl_cons, parseLine_blank,
        List.foldl_nil]
      constructor
      · rw [skillStep_sec]
      · rw [if_pos (show optTruthy (some c) = true by
          cases c with
          | nil => exact absurd rfl hcf.2
          | cons a t => rfl), hs1]
        rfl
  · rw [if_neg hc]
    simp only [List.nil_append, List.singleton_append, List.cons_append]
    rw [List.foldl_cons, parseLine_skill _ _ sid s himgline.1,
      List.foldl_cons, parseLine_blank, List.foldl_nil]
    constructor
    · rw [skillStep_sec]
    · rw [if_neg hc, hs1]
      rfl

/-- The regenerated image body for an arbitrary id list. -/
def imageEntriesOf (m1 : Skills) (sids : List Str) : List Str :=
  sids.flatMap (fun sid => entryImageLines sid (getEntry m1 sid))

/-- The regenerated color body for an arbitrary id list. -/
def colorEntriesOf (m1 : Skills) (sids : List Str) : List Str :=
  sids.flatMap (fun sid => entryColorLines sid (getEntry m1 sid))

theorem imageBlock_eq (m : Skills) : imageBlock m = imageEntriesOf m (skill_ids m) := rfl

theorem colorBlock_eq (m : Skills) : colorBlock m = colorEntriesOf m (skill_ids m) := rfl
/-- Folding the parser over a regenerated image body: the section is
kept, every listed id ends up present with its `m1` image, and nothing
else changes. -/
theorem foldl_imageEntriesOf (m1 : Skills) (hGM : goodMap m1) :
    ∀ (sids : List Str), (∀ x ∈ sids, x ∈ keysOf m1) →
    ∀ st : PState, st.sec = some imageSecName →
    ((imageEntriesOf m1 sids).foldl parseLine st).sec = st.sec ∧
    (∀ k, k ∈ keysOf st.skills →
      k ∈ keysOf ((imageEntriesOf m1 sids).foldl parseLine st).skills) ∧
    (∀ x ∈ sids, x ∈ keysOf ((imageEntriesOf m1 sids).foldl parseLine st).skills ∧
      (getEntry ((imageEntriesOf m1 sids).foldl parseLine st).skills x).image =
        (getEntry m1 x).image) ∧
    (∀ k, (getEntry ((imageEntriesOf m1 sids).foldl parseLine st).skills k).color =
        (getEntry st.skills k).color ∧
      (getEntry ((imageEntriesOf m1 sids).foldl parseLine st).skills k).comment =
        (getEntry st.skills k).comment) ∧
    (∀ k, k ∉ sids →
      (getEntry ((imageEntriesOf m1 sids).foldl parseLine st).skills k).image =
        (getEntry st.skills k).image) ∧
    (∀ k, k ∈ keysOf ((imageEntriesOf m1 sids).foldl parseLine st).skills →
      k ∈ keysOf st.skills ∨ k ∈ sids) := by
  intro sids
  induction sids with
  | nil =>
    intro _ st _
    exact ⟨rfl, fun k h => h, fun x hx => absurd hx (List.not_mem_nil x),
      fun k => ⟨rfl, rfl⟩, fun k _ => rfl, fun k h => Or.inl h⟩
  | cons sid rest ih =>
    intro hall st hsec
    have hfl : imageEntriesOf m1 (sid :: rest) =
        entryImageLines sid (getEntry m1 sid) ++ imageEntriesOf m1 rest := by
      rw [imageEntriesOf, List.flatMap_cons]
      rfl
    rw [hfl, List.foldl_append]
    obtain ⟨hone_sec, hone_skills⟩ :=
      foldl_oneImageEntry m1 hGM sid (hall sid (List.mem_cons_self sid rest)) st hsec
    set stE := (entryImageLines sid (getEntry m1 sid)).foldl parseLine st with hstE
    have hsecE : stE.sec = some imageSecName := by rw [hone_sec, hsec]
    obtain ⟨ih_sec, ih_mono, ih_set, ih_cc, ih_untouched, ih_origin⟩ :=
      ih (fun x hx => hall x (List.mem_cons_of_mem sid hx)) stE hsecE
    have hone' : stE.skills =
        (skillStep (if optTruthy (getEntry m1 sid).comment
            then ({ st with lastComment := (getEntry m1 sid).comment } : PState)
            else st) sid (fmtOptStr (getEntry m1 sid).image)).skills := hone_skills
    set st1 := (if optTruthy (getEntry m1 sid).comment
        then ({ st with lastComment := (getEntry m1 sid).comment } : PState)
        else st) with hst1
    have hst1sec : st1.sec = some imageSecName := by
      rw [hst1]
      by_cases hct : optTruthy (getEntry m1 sid).comment = true
      · rw [if_pos hct]
        exact hsec
      · rw [if_neg hct]
        exact hsec
    have hst1skills : st1.skills = st.skills := by
      rw [hst1]
      by_cases hct : optTruthy (getEntry m1 sid).comment = true
      · rw [if_pos hct]
      · rw [if_neg hct]
    obtain ⟨hchar_self, hchar_ne⟩ :=
      skillStep_getEntry_image_char st1 sid (fmtOptStr (getEntry m1 sid).image) hst1sec
    have hgE_self_img : (getEntry stE.skills sid).image = (getEntry m1 sid).image := by
      rw [hone', hchar_self]
      obtain ⟨s, hs1, -, -, -⟩ :=
        (goodMap_getEntry hGM (hall sid (List.mem_cons_self sid rest))).2.1
      rw [hs1]
      rfl
    have hgE_mem : sid ∈ keysOf stE.skills := by
      rw [hone']
      exact skillStep_mem_key st1 sid _
    have hgE_ne : ∀ k, k ≠ sid → getEntry stE.skills k = getEntry st.skills k := by
      intro k hk
      rw [hone', hchar_ne k hk, hst1skills]
    have hgE_cc : ∀ k, (getEntry stE.skills k).color = (getEntry st.skills k).color ∧
        (getEntry stE.skills k).comment = (getEntry st.skills k).comment := by
      intro k
      by_cases hk : k = sid
      · subst hk
        rw [hone', hchar_self, hst1skills]
        exact ⟨rfl, rfl⟩
      · rw [hgE_ne k hk]
        exact ⟨rfl, rfl⟩
    have hkeysE_mono : ∀ k, k ∈ keysOf st.skills → k ∈ keysOf stE.skills := by
      intro k hk
      rw [hone', skillStep_keys]
      by_cases hf : (findEntry st1.skills sid).isSome = true
      · rw [if_pos hf, hst1skills]
        exact hk
      · rw [if_neg hf, hst1skills]
        exact List.mem_append.mpr (Or.inl hk)
    have hkeysE_origin : ∀ k, k ∈ keysOf stE.skills → k ∈ keysOf st.skills ∨ k = sid := by
      intro k hk
      rw [hone'] at hk
      rcases skillStep_keys_origin st1 sid _ hk with h | h
      · rw [hst1skills] at h
        exact Or.inl h
      · exact Or.inr h
    refine ⟨by rw [ih_sec, hone_sec], fun k hk => ih_mono k (hkeysE_mono k hk), ?_, ?_, ?_, ?_⟩
    · intro x hx
      rcases List.mem_cons.mp hx with rfl | hx
      · by_cases hxr : x ∈ rest
        · exact ih_set x hxr
        · refine ⟨ih_mono x hgE_mem, ?_⟩
          rw [ih_untouched x hxr, hgE_self_img]
      · exact ih_set x hx
    · intro k
      exact ⟨(ih_cc k).1.trans (hgE_cc k).1, (ih_cc k).2.trans (hgE_cc k).2⟩
    · intro k hk
      have hk1 : k ∉ rest := fun h => hk (List.mem_cons_of_mem sid h)
      have hk2 : k ≠ sid := fun h => hk (h ▸ List.mem_cons_self sid rest)
      exact (ih_untouched k hk1).trans (congrArg SkillData.image (hgE_ne k hk2))
    · intro k hk
      rcases ih_origin k hk with h | h
      · rcases hkeysE_origin k h with h2 | h2
        · exact Or.inl h2
        · exact Or.inr (h2 ▸ List.mem_cons_self sid rest)
      · exact Or.inr (List.mem_cons_of_mem sid h)

/-- Folding the parser over the regenerated lines of one color entry:
nothing happens for a falsy color; otherwise the optional comment is
picked up as pending and consumed by the `sid=color` line, and the
pending comment ends cleared. -/
theorem foldl_oneColorEntry (m1 : Skills) (hGM : goodMap m1) (sid : Str)
    (hsid : sid ∈ keysOf m1) (st : PState) (hsec : st.sec = some colorSecName)
    (hlc : st.lastComment = none) :
    ((entryColorLines sid (getEntry m1 sid)).foldl parseLine st).sec = st.sec ∧
    ((entryColorLines sid (getEntry m1 sid)).foldl parseLine st).lastComment = none ∧
    ((entryColorLines sid (getEntry m1 sid)).foldl parseLine st).skills =
      (if optTruthy (getEntry m1 sid).color
       then (skillStep { st with lastComment := (getEntry m1 sid).comment } sid
              (fmtOptStr (getEntry m1 sid).color)).skills
       else st.skills) := by
  obtain ⟨hk, hgd⟩ := goodMap_getEntry hGM hsid
  by_cases hct : optTruthy (getEntry m1 sid).color = true
  · obtain ⟨v, hv1, hv2, hv3, hv4⟩ : ∃ v, (getEntry m1 sid).color = some v ∧
        v ≠ [] ∧ stripInv v ∧ noNL v := by
      rcases hgd.2.2 with hnone | h
      · rw [hnone] at hct
        exact absurd hct (by decide)
      · exact h
    have hfmt : fmtOptStr (getEntry m1 sid).color = v := by
      rw [hv1]
      rfl
    obtain ⟨hassign, hnh, hnc⟩ := skillAssign_color_line hk hv2 hv3
    have hlines : entryColorLines sid (getEntry m1 sid) =
        (if optTruthy (getEntry m1 sid).comment = true
          then [(getEntry m1 sid).comment.getD []] else []) ++
          ([sid ++ '=' :: v] ++ [[]]) := by
      rw [entryColorLines, if_pos hct, hfmt, color_line_eq, List.append_assoc]
    by_cases hcm : optTruthy (getEntry m1 sid).comment = true
    · obtain ⟨c, hc1, hc2, hc3, -⟩ : ∃ c, (getEntry m1 sid).comment = some c ∧
          isCommentLine c = true ∧ noNL c ∧ optTruthy (getEntry m1 sid).color = true := by
        rcases hgd.2.1 with hnone | h
        · rw [hnone] at hcm
          exact absurd hcm (by decide)
        · exact h
      have hlines2 : entryColorLines sid (getEntry m1 sid) =
          [c, sid ++ '=' :: v, []] := by
        rw [hlines, if_pos hcm, hc1]
        rfl
      rw [hlines2]
      have h1 : parseLine st c = { st with lastComment := some c } :=
        parseLine_comment st c (isCommentLine_facts hc2).1 hc2
      have h2 : parseLine { st with lastComment := some c } (sid ++ '=' :: v) =
          skillStep { st with lastComment := some c } sid v :=
        parseLine_skill _ _ _ _ hassign
      rw [List.foldl_cons, h1, List.foldl_cons, h2, List.foldl_cons, parseLine_blank,
        List.foldl_nil]
      have hcne : c ≠ [] := (isCommentLine_facts hc2).2
      have hoptc : optTruthy (some c) = true := by
        cases c with
        | nil => exact absurd rfl hcne
        | cons a t => rfl
      refine ⟨rfl, ?_, ?_⟩
      · rw [skillStep_lastComment, if_pos ⟨hsec, hoptc⟩]
      · rw [if_pos hct, hfmt, hc1]
    · have hcnone : (getEntry m1 sid).comment = none := by
        rcases hgd.2.1 with hnone | ⟨c, hc1, hc2, -, -⟩
        · exact hnone
        · have hcne : c ≠ [] := (isCommentLine_facts hc2).2
          rw [hc1] at hcm
          cases c with
          | nil => exact absurd rfl hcne
          | cons a t => exact absurd rfl hcm
      have hlines2 : entryColorLines sid (getEntry m1 sid) = [sid ++ '=' :: v, []] := by
        rw [hlines, if_neg hcm]
        rfl
      rw [hlines2]
      have h2 : parseLine st (sid ++ '=' :: v) = skillStep st sid v :=
        parseLine_skill _ _ _ _ hassign
      rw [List.foldl_cons, h2, List.foldl_cons, parseLine_blank, List.foldl_nil]
      have hstc : ({ st with lastComment := (getEntry m1 sid).comment } : PState) = st := by
        rw [hcnone]
        obtain ⟨a, b, c0⟩ := st
        obtain rfl : c0 = none := hlc
        rfl
      have hcond : ¬ (st.sec = some colorSecName ∧ optTruthy st.lastComment = true) := by
        intro h
        rw [hlc] at h
        exact absurd h.2 (by decide)
      refine ⟨rfl, ?_, ?_⟩
      · rw [skillStep_lastComment, if_neg hcond]
        exact hlc
      · rw [if_pos hct, hfmt, hstc]
  · have hlines : entryColorLines sid (getEntry m1 sid) = [] := by
      rw [entryColorLines, if_neg hct]
    rw [hlines]
    refine ⟨rfl, hlc, ?_⟩
    rw [if_neg hct]
    rfl

/-- Folding the parser over a regenerated color body: the section and
(cleared) pending comment are kept, every listed id with a truthy color
ends up present with its `m1` color and (when truthy) comment, and
nothing else changes. -/
theorem foldl_colorEntriesOf (m1 : Skills) (hGM : goodMap m1) :
    ∀ (sids : List Str), (∀ x ∈ sids, x ∈ keysOf m1) →
    ∀ st : PState, st.sec = some colorSecName → st.lastComment = none →
    ((colorEntriesOf m1 sids).foldl parseLine st).sec = st.sec ∧
    ((colorEntriesOf m1 sids).foldl parseLine st).lastComment = none ∧
    (∀ k, k ∈ keysOf st.skills →
      k ∈ keysOf ((colorEntriesOf m1 sids).foldl parseLine st).skills) ∧
    (∀ x ∈ sids, optTruthy (getEntry m1 x).color = true →
      x ∈ keysOf ((colorEntriesOf m1 sids).foldl parseLine st).skills ∧
      (getEntry ((colorEntriesOf m1 sids).foldl parseLine st).skills x).color =
        (getEntry m1 x).color ∧
      (getEntry ((colorEntriesOf m1 sids).foldl parseLine st).skills x).comment =
        (if optTruthy (getEntry m1 x).comment then (getEntry m1 x).comment
         else (getEntry st.skills x).comment)) ∧
    (∀ k, k ∉ sids ∨ ¬ optTruthy (getEntry m1 k).color = true →
      getEntry ((colorEntriesOf m1 sids).foldl parseLine st).skills k =
        getEntry st.skills k) ∧
    (∀ k, (getEntry ((colorEntriesOf m1 sids).foldl parseLine st).skills k).image =
      (getEntry st.skills k).image) ∧
    (∀ k, k ∈ keysOf ((colorEntriesOf m1 sids).foldl parseLine st).skills →
      k ∈ keysOf st.skills ∨ k ∈ sids) := by
  intro sids
  induction sids with
  | nil =>
    intro _ st _ hlc
    exact ⟨rfl, hlc, fun k h => h, fun x hx => absurd hx (List.not_mem_nil x),
      fun k _ => rfl, fun k => rfl, fun k h => Or.inl h⟩
  | cons sid rest ih =>
    intro hall st hsec hlc
    have hfl : colorEntriesOf m1 (sid :: rest) =
        entryColorLines sid (getEntry m1 sid) ++ colorEntriesOf m1 rest := by
      rw [colorEntriesOf, List.flatMap_cons]
      rfl
    rw [hfl, List.foldl_append]
    obtain ⟨hone_sec, hone_lc, hone_skills⟩ :=
      foldl_oneColorEntry m1 hGM sid (hall sid (List.mem_cons_self sid rest)) st hsec hlc
    set stE := (entryColorLines sid (getEntry m1 sid)).foldl parseLine st with hstE
    have hsecE : stE.sec = some colorSecName := by rw [hone_sec, hsec]
    obtain ⟨ih_sec, ih_lc, ih_mono, ih_set, ih_untouched, ih_img, ih_origin⟩ :=
      ih (fun x hx => hall x (List.mem_cons_of_mem sid hx)) stE hsecE hone_lc
    have hstc_skills : ({ st with lastComment := (getEntry m1 sid).comment } : PState).skills
        = st.skills := rfl
    have hstc_sec : ({ st with lastComment := (getEntry m1 sid).comment } : PState).sec
        = some colorSecName := hsec
    by_cases hct : optTruthy (getEntry m1 sid).color = true
    · obtain ⟨v, hv1, hv2, hv3, hv4⟩ : ∃ v, (getEntry m1 sid).color = some v ∧
          v ≠ [] ∧ stripInv v ∧ noNL v := by
        rcases (goodMap_getEntry hGM (hall sid (List.mem_cons_self sid rest))).2.2.2
          with hnone | h
        · rw [hnone] at hct
          exact absurd hct (by decide)
        · exact h
      have hfmt : fmtOptStr (getEntry m1 sid).color = v := by
        rw [hv1]
        rfl
      obtain ⟨hchar_self, hchar_ne⟩ := skillStep_getEntry_color_char
        ({ st with lastComment := (getEntry m1 sid).comment }) sid
        (fmtOptStr (getEntry m1 sid).color) hstc_sec
      have hEskills : stE.skills =
          (skillStep { st with lastComment := (getEntry m1 sid).comment } sid
            (fmtOptStr (getEntry m1 sid).color)).skills := by
        rw [hone_skills, if_pos hct]
      have hE_self : getEntry stE.skills sid =
          (if optTruthy (getEntry m1 sid).comment = true
           then { getEntry st.skills sid with color := some v, comment := (getEntry m1 sid).comment }
           else { getEntry st.skills sid with color := some v }) := by
        rw [hEskills, hchar_self, hfmt]
      have hE_self_color : (getEntry stE.skills sid).color = (getEntry m1 sid).color := by
        rw [hE_self]
        by_cases hcm : optTruthy (getEntry m1 sid).comment = true
        · rw [if_pos hcm]
          exact hv1.symm
        · rw [if_neg hcm]
          exact hv1.symm
      have hE_self_comment : (getEntry stE.skills sid).comment =
          (if optTruthy (getEntry m1 sid).comment then (getEntry m1 sid).comment
           else (getEntry st.skills sid).comment) := by
        rw [hE_self]
        by_cases hcm : optTruthy (getEntry m1 sid).comment = true
        · rw [if_pos hcm, if_pos hcm]
        · rw [if_neg hcm, if_neg hcm]
      have hE_self_image : (getEntry stE.skills sid).image = (getEntry st.skills sid).image := by
        rw [hE_self]
        by_cases hcm : optTruthy (getEntry m1 sid).comment = true
        · rw [if_pos hcm]
        · rw [if_neg hcm]
      have hE_mem : sid ∈ keysOf stE.skills := by
        rw [hEskills]
        exact skillStep_mem_key _ sid _
      have hE_ne : ∀ k, k ≠ sid → getEntry stE.skills k = getEntry st.skills k := by
        intro k hk
        rw [hEskills, hchar_ne k hk]
      have hE_image : ∀ k, (getEntry stE.skills k).image = (getEntry st.skills k).image := by
        intro k
        by_cases hk : k = sid
        · subst hk
          exact hE_self_image
        · rw [hE_ne k hk]
      have hE_mono : ∀ k, k ∈ keysOf st.skills → k ∈ keysOf stE.skills := by
        intro k hk
        rw [hEskills, skillStep_keys, hstc_skills]
        by_cases hf : (findEntry st.skills sid).isSome = true
        · rw [if_pos hf]
          exact hk
        · rw [if_neg hf]
          exact List.mem_append.mpr (Or.inl hk)
      have hE_origin : ∀ k, k ∈ keysOf stE.skills → k ∈ keysOf st.skills ∨ k = sid := by
        intro k hk
        rw [hEskills] at hk
        rcases skillStep_keys_origin _ sid _ hk with h | h
        · rw [hstc_skills] at h
          exact Or.inl h
        · exact Or.inr h
      refine ⟨by rw [ih_sec, hone_sec], ih_lc, fun k hk => ih_mono k (hE_mono k hk),
        ?_, ?_, fun k => (ih_img k).trans (hE_image k), ?_⟩
      · intro x hx hxct
        rcases List.mem_cons.mp hx with rfl | hxr
        · by_cases hxrest : x ∈ rest
          · obtain ⟨hm, hc, hcm⟩ := ih_set x hxrest hxct
            refine ⟨hm, hc, ?_⟩
            rw [hcm]
            by_cases hcmt : optTruthy (getEntry m1 x).comment = true
            · rw [if_pos hcmt, if_pos hcmt]
            · rw [if_neg hcmt, if_neg hcmt, hE_self_comment, if_neg hcmt]
          · have huntouched := ih_untouched x (Or.inl hxrest)
            refine ⟨ih_mono x hE_mem, ?_, ?_⟩
            · rw [huntouched, hE_self_color]
            · rw [huntouched, hE_self_comment]
        · obtain ⟨hm, hc, hcm⟩ := ih_set x hxr hxct
          refine ⟨hm, hc, ?_⟩
          rw [hcm]
          by_cases hcmt : optTruthy (getEntry m1 x).comment = true
          · rw [if_pos hcmt, if_pos hcmt]
          · rw [if_neg hcmt, if_neg hcmt]
            by_cases hxsid : x = sid
            · subst hxsid
              rw [hE_self_comment, if_neg hcmt]
            · rw [hE_ne x hxsid]
      · intro k hk
        rcases hk with hk | hk
        · have hk1 : k ∉ rest := fun h => hk (List.mem_cons_of_mem sid h)
          have hk2 : k ≠ sid := fun h => hk (h ▸ List.mem_cons_self sid rest)
          rw [ih_untouched k (Or.inl hk1), hE_ne k hk2]
        · have hk2 : k ≠ sid := fun h => hk (h ▸ hct)
          rw [ih_untouched k (Or.inr hk), hE_ne k hk2]
      · intro k hk
        rcases ih_origin k hk with h | h
        · rcases hE_origin k h with h2 | h2
          · exact Or.inl h2
          · exact Or.inr (h2 ▸ List.mem_cons_self sid rest)
        · exact Or.inr (List.mem_cons_of_mem sid h)
    · have hEskills : stE.skills = st.skills := by
        rw [hone_skills, if_neg hct]
      refine ⟨by rw [ih_sec, hone_sec], ih_lc, ?_, ?_, ?_, ?_, ?_⟩
      · intro k hk
        apply ih_mono
        rw [hEskills]
        exact hk
      · intro x hx hxct
        rcases List.mem_cons.mp hx with rfl | hxr
        · exact absurd hxct hct
        · obtain ⟨hm, hc, hcm⟩ := ih_set x hxr hxct
          refine ⟨hm, hc, ?_⟩
          rw [hcm, hEskills]
      · intro k hk
        have hk' : k ∉ rest ∨ ¬ optTruthy (getEntry m1 k).color = true := by
          rcases hk with hk | hk
          · exact Or.inl (fun h => hk (List.mem_cons_of_mem sid h))
          · exact Or.inr hk
        rw [ih_untouched k hk', hEskills]
      · intro k
        rw [ih_img k, hEskills]
      · intro k hk
        rcases ih_origin k hk with h | h
        · rw [hEskills] at h
          exact Or.inl h
        · exact Or.inr (List.mem_cons_of_mem sid h)

theorem mem_skill_ids {m : Skills} {x : Str} : x ∈ skill_ids m ↔ x ∈ keysOf m :=
  (List.perm_insertionSort _ _).mem_iff

theorem parseLine_sec_not_header (st : PState) (line : Str) (h : isHeader line = false) :
    (parseLine st line).sec = st.sec := by
  rcases parseLine_cases st line with ⟨h1, -⟩ | ⟨-, -, he⟩ | ⟨-, -, k0, v0, -, he⟩ |
    ⟨-, -, -, he⟩
  · rw [h1] at h
    exact absurd h (by decide)
  · rw [he]
  · rw [he, skillStep_sec]
  · rw [he]

theorem foldl_sec_no_header (B : List Str) : ∀ st : PState,
    (∀ l ∈ B, isHeader l = false) → (B.foldl parseLine st).sec = st.sec := by
  induction B with
  | nil => exact fun st _ => rfl
  | cons l rest ih =>
    intro st hall
    rw [List.foldl_cons, ih _ (fun x hx => hall x (List.mem_cons_of_mem l hx)),
      parseLine_sec_not_header st l (hall l (List.mem_cons_self l rest))]

/-- Inside a header-free run of lines parsed in the color section, any
key that appears but was not there before has received a color value. -/
theorem colorBody_new_keys (B : List Str) : ∀ st : PState,
    st.sec = some colorSecName → (∀ l ∈ B, isHeader l = false) →
    ∀ k, k ∈ keysOf ((B.foldl parseLine st)).skills →
      k ∈ keysOf st.skills ∨
        (getEntry ((B.foldl parseLine st)).skills k).color.isSome = true := by
  induction B with
  | nil =>
    intro st _ _ k hk
    exact Or.inl hk
  | cons l rest ih =>
    intro st hsec hh k hk
    rw [List.foldl_cons] at hk ⊢
    have hsec' : (parseLine st l).sec = some colorSecName := by
      rw [parseLine_sec_not_header st l (hh l (List.mem_cons_self l rest)), hsec]
    rcases ih (parseLine st l) hsec' (fun x hx => hh x (List.mem_cons_of_mem l hx)) k hk
      with h | h
    · rcases parseLine_keys_origin st l h with h2 | ⟨v, hkv⟩
      · exact Or.inl h2
      · right
        apply foldl_color_isSome_mono
        rw [parseLine_skill st l k v hkv, skillStep_getEntry_color st k v hsec]
        rfl
    · exact Or.inr h

/-- Every key of the full parse of `L` is recovered when the rebuilt
text is reparsed: surviving skill lines recreate their keys, and keys
whose lines were dropped with a managed body are re-emitted by the
regenerated block at that section's header. -/
theorem reparse_keys_sup (m1 mP : Skills) (hGM : goodMap m1)
    (hm1keys : ∀ k, k ∈ keysOf mP → k ∈ keysOf m1)
    (hm1truthy : ∀ k, k ∈ keysOf mP → (getEntry mP k).color.isSome = true →
      optTruthy (getEntry m1 k).color = true) :
    ∀ L : List Str, ∀ stL st2 : PState,
      stL.sec = st2.sec →
      (L.foldl parseLine stL).skills = mP →
      (∀ k, k ∈ keysOf stL.skills → k ∈ keysOf st2.skills) →
      ∀ k, k ∈ keysOf mP →
        k ∈ keysOf ((rebuildLines m1 L).foldl parseLine st2).skills := by
  intro L
  induction L using rebuildLines.induct m1 with
  | case1 =>
    intro stL st2 _ hrest hsub k hk
    rw [rebuildLines]
    rw [← hrest] at hk
    exact hsub k hk
  | case2 line rest hh hsecl ih =>
    intro stL st2 hsec hrest hsub k hk
    have hsecl' : some (secOf line) = some imageSecName := by rw [hsecl]
    rw [rebuildLines, if_pos hh, if_pos hsecl, imageBlock_eq, List.foldl_cons,
      parseLine_header st2 line hh, List.foldl_append]
    have hst2hsec : ({ st2 with sec := some (secOf line), lastComment := none } : PState).sec
        = some imageSecName := hsecl'
    have hmemsids : ∀ x ∈ skill_ids m1, x ∈ keysOf m1 := fun x hx => mem_skill_ids.mp hx
    obtain ⟨hb_sec, hb_mono, hb_set, hb_cc, hb_unt, hb_origin⟩ :=
      foldl_imageEntriesOf m1 hGM (skill_ids m1) hmemsids
        ({ st2 with sec := some (secOf line), lastComment := none }) hst2hsec
    have hBR : rest.takeWhile (fun l => !(isHeader l)) ++
        rest.dropWhile (fun l => !(isHeader l)) = rest :=
      List.takeWhile_append_dropWhile _ _
    have hBhead : ∀ l ∈ rest.takeWhile (fun l => !(isHeader l)), isHeader l = false := by
      intro l hl
      have := List.mem_takeWhile_imp hl
      simpa using this
    rw [List.foldl_cons, parseLine_header stL line hh, ← hBR, List.foldl_append] at hrest
    have hstL2sec : ((rest.takeWhile (fun l => !(isHeader l))).foldl parseLine
        ({ stL with sec := some (secOf line), lastComment := none })).sec
        = some imageSecName := by
      rw [foldl_sec_no_header _ _ hBhead]
      exact hsecl'
    refine ih _ _ ?_ hrest ?_ k hk
    · rw [hstL2sec, hb_sec, hst2hsec]
    · intro x hx
      have hx_mP : x ∈ keysOf mP := by
        rw [← hrest]
        exact foldl_keys_mono _ _ hx
      exact (hb_set x (mem_skill_ids.mpr (hm1keys x hx_mP))).1
  | case3 line rest hh hsec1 hsecl ih =>
    intro stL st2 hsec hrest hsub k hk
    have hsecl' : some (secOf line) = some colorSecName := by rw [hsecl]
    rw [rebuildLines, if_pos hh, if_neg hsec1, if_pos hsecl, colorBlock_eq, List.foldl_cons,
      parseLine_header st2 line hh, List.foldl_append]
    have hst2hsec : ({ st2 with sec := some (secOf line), lastComment := none } : PState).sec
        = some colorSecName := hsecl'
    have hmemsids : ∀ x ∈ skill_ids m1, x ∈ keysOf m1 := fun x hx => mem_skill_ids.mp hx
    obtain ⟨hb_sec, hb_lc, hb_mono, hb_set, hb_unt, hb_img, hb_origin⟩ :=
      foldl_colorEntriesOf m1 hGM (skill_ids m1) hmemsids
        ({ st2 with sec := some (secOf line), lastComment := none }) hst2hsec rfl
    have hBR : rest.takeWhile (fun l => !(isHeader l)) ++
        rest.dropWhile (fun l => !(isHeader l)) = rest :=
      List.takeWhile_append_dropWhile _ _
    have hBhead : ∀ l ∈ rest.takeWhile (fun l => !(isHeader l)), isHeader l = false := by
      intro l hl
      have := List.mem_takeWhile_imp hl
      simpa using this
    have hstLhsec : ({ stL with sec := some (secOf line), lastComment := none } : PState).sec
        = some colorSecName := hsecl'
    rw [List.foldl_cons, parseLine_header stL line hh, ← hBR, List.foldl_append] at hrest
    have hstL2sec : ((rest.takeWhile (fun l => !(isHeader l))).foldl parseLine
        ({ stL with sec := some (secOf line), lastComment := none })).sec
        = some colorSecName := by
      rw [foldl_sec_no_header _ _ hBhead]
      exact hsecl'
    refine ih _ _ ?_ hrest ?_ k hk
    · rw [hstL2sec, hb_sec, hst2hsec]
    · intro x hx
      rcases colorBody_new_keys _ _ hstLhsec hBhead x hx with h | h
      · exact hb_mono x (hsub x h)
      · have hx_mP : x ∈ keysOf mP := by
          rw [← hrest]
          exact foldl_keys_mono _ _ hx
        have h_mP_some : (getEntry mP x).color.isSome = true := by
          rw [← hrest]
          exact foldl_color_isSome_mono _ _ h
        exact (hb_set x (mem_skill_ids.mpr (hm1keys x hx_mP))
          (hm1truthy x hx_mP h_mP_some)).1
  | case4 line rest hh hsec1 hsec2 ih =>
    intro stL st2 hsec hrest hsub k hk
    rw [rebuildLines, if_pos hh, if_neg hsec1, if_neg hsec2, List.foldl_cons,
      parseLine_header st2 line hh]
    rw [List.foldl_cons, parseLine_header stL line hh] at hrest
    exact ih ({ stL with sec := some (secOf line), lastComment := none })
      ({ st2 with sec := some (secOf line), lastComment := none })
      rfl hrest (fun x hx => hsub x hx) k hk
  | case5 line rest hh ih =>
    intro stL st2 hsec hrest hsub k hk
    have hh' : isHeader line = false := Bool.eq_false_iff.mpr hh
    rw [rebuildLines, if_neg (by simp [hh]), List.foldl_cons]
    rw [List.foldl_cons] at hrest
    refine ih _ _ ?_ hrest ?_ k hk
    · rw [parseLine_sec_not_header stL line hh', parseLine_sec_not_header st2 line hh', hsec]
    · intro x hx
      rcases parseLine_keys_origin stL line hx with h | ⟨v, hkv⟩
      · exact parseLine_keys_mono st2 line (hsub x h)
      · rw [parseLine_skill st2 line x v hkv]
        exact skillStep_mem_key st2 x v

theorem skillStep_image_isSome_mono (st : PState) (k0 v : Str) {k : Str}
    (h : (getEntry st.skills k).image.isSome = true) :
    (getEntry (skillStep st k0 v).skills k).image.isSome = true := by
  by_cases hcs : st.sec = some colorSecName
  · by_cases hk : k = k0
    · subst hk
      rw [(skillStep_getEntry_color_char st k v hcs).1]
      by_cases hlc : optTruthy st.lastComment = true
      · rw [if_pos hlc]
        exact h
      · rw [if_neg hlc]
        exact h
    · rw [(skillStep_getEntry_color_char st k0 v hcs).2 k hk]
      exact h
  · by_cases his : st.sec = some imageSecName
    · by_cases hk : k = k0
      · subst hk
        rw [(skillStep_getEntry_image_char st k v his).1]
        rfl
      · rw [(skillStep_getEntry_image_char st k0 v his).2 k hk]
        exact h
    · rw [skillStep_getEntry_unmanaged st k0 v hcs his k]
      exact h

theorem parseLine_image_isSome_mono (st : PState) (line : Str) {k : Str}
    (h : (getEntry st.skills k).image.isSome = true) :
    (getEntry (parseLine st line).skills k).image.isSome = true := by
  rcases parseLine_cases st line with ⟨-, he⟩ | ⟨-, -, he⟩ | ⟨-, -, k0, v0, -, he⟩ |
    ⟨-, -, -, he⟩ <;> rw [he]
  · exact h
  · exact h
  · exact skillStep_image_isSome_mono st k0 v0 h
  · exact h

theorem foldl_image_isSome_mono (lines : List Str) : ∀ (st : PState) {k : Str},
    (getEntry st.skills k).image.isSome = true →
    (getEntry ((lines.foldl parseLine st)).skills k).image.isSome = true := by
  induction lines with
  | nil => exact fun st _ h => h
  | cons l rest ih =>
    intro st k h
    rw [List.foldl_cons]
    exact ih _ (parseLine_image_isSome_mono st l h)

theorem skillStep_comment_isSome_mono (st : PState) (k0 v : Str) {k : Str}
    (h : (getEntry st.skills k).comment.isSome = true) :
    (getEntry (skillStep st k0 v).skills k).comment.isSome = true := by
  by_cases hcs : st.sec = some colorSecName
  · by_cases hk : k = k0
    · subst hk
      rw [(skillStep_getEntry_color_char st k v hcs).1]
      by_cases hlc : optTruthy st.lastComment = true
      · rw [if_pos hlc]
        cases hl : st.lastComment with
        | none =>
          rw [hl] at hlc
          exact absurd hlc (by decide)
        | some c => rfl
      · rw [if_neg hlc]
        exact h
    · rw [(skillStep_getEntry_color_char st k0 v hcs).2 k hk]
      exact h
  · by_cases his : st.sec = some imageSecName
    · by_cases hk : k = k0
      · subst hk
        rw [(skillStep_getEntry_image_char st k v his).1]
        exact h
      · rw [(skillStep_getEntry_image_char st k0 v his).2 k hk]
        exact h
    · rw [skillStep_getEntry_unmanaged st k0 v hcs his k]
      exact h

theorem parseLine_comment_isSome_mono (st : PState) (line : Str) {k : Str}
    (h : (getEntry st.skills k).comment.isSome = true) :
    (getEntry (parseLine st line).skills k).comment.isSome = true := by
  rcases parseLine_cases st line with ⟨-, he⟩ | ⟨-, -, he⟩ | ⟨-, -, k0, v0, -, he⟩ |
    ⟨-, -, -, he⟩ <;> rw [he]
  · exact h
  · exact h
  · exact skillStep_comment_isSome_mono st k0 v0 h
  · exact h

theorem foldl_comment_isSome_mono (lines : List Str) : ∀ (st : PState) {k : Str},
    (getEntry st.skills k).comment.isSome = true →
    (getEntry ((lines.foldl parseLine st)).skills k).comment.isSome = true := by
  induction lines with
  | nil => exact fun st _ h => h
  | cons l rest ih =>
    intro st k h
    rw [List.foldl_cons]
    exact ih _ (parseLine_comment_isSome_mono st l h)

theorem skillAssignParts_comment {c : Str} (h : isCommentLine c = true) :
    skillAssignParts c = none := by
  simp only [skillAssignParts]
  by_cases h1 : isHeader c = true
  · rw [if_pos h1]
  · rw [if_neg h1, if_pos h]

/-- Every key of a recognized skill line of `L` is a key of the parse of `L`. -/
theorem foldl_keys_complete (L : List Str) : ∀ st : PState, ∀ l ∈ L, ∀ k v,
    skillAssignParts l = some (k, v) → k ∈ keysOf (L.foldl parseLine st).skills := by
  induction L with
  | nil =>
    intro st l hl
    exact absurd hl (List.not_mem_nil l)
  | cons a rest ih =>
    intro st l hl k v hkv
    rw [List.foldl_cons]
    rcases List.mem_cons.mp hl with rfl | hl
    · apply foldl_keys_mono
      rw [parseLine_skill st l k v hkv]
      exact skillStep_mem_key st k v
    · exact ih _ l hl k v hkv

theorem optTruthy_isSome {o : Option Str} (h : optTruthy o = true) : o.isSome = true := by
  cases o with
  | none => exact absurd h (by decide)
  | some s => rfl

/-- `L` contains a section header for section name `sec`. -/
def hasHeaderSec (L : List Str) (sec : Str) : Prop :=
  ∃ l ∈ L, isHeader l = true ∧ secOf l = sec

/-- Invariant of the reparse of rebuilt text: every key is a key of the
reference mapping `m1`, and every stored field is either still unset or
already holds its `m1` value. -/
def entriesKnown (m1 : Skills) (s : PState) : Prop :=
  (∀ k, k ∈ keysOf s.skills → k ∈ keysOf m1) ∧
  (∀ k, (getEntry s.skills k).image = none ∨
    (getEntry s.skills k).image = (getEntry m1 k).image) ∧
  (∀ k, (getEntry s.skills k).color = none ∨
    (getEntry s.skills k).color = (getEntry m1 k).color) ∧
  (∀ k, (getEntry s.skills k).comment = none ∨
    (getEntry s.skills k).comment = (getEntry m1 k).comment)

/-- Main reparse induction: walking the rebuilt line list keeps the
`entriesKnown` invariant, and once a managed header has been passed the
corresponding fields are populated (hence, with the invariant, equal to
their `m1` values). -/
theorem reparse_main (m1 : Skills) (hGM : goodMap m1) :
    ∀ L : List Str,
      (∀ l ∈ L, ∀ k v, skillAssignParts l = some (k, v) → k ∈ keysOf m1) →
      ∀ s : PState,
      entriesKnown m1 s →
      ((s.sec = some imageSecName ∨ s.sec = some colorSecName) →
        (L = [] ∨ ∃ h0 t0, L = h0 :: t0 ∧ isHeader h0 = true)) →
      entriesKnown m1 ((rebuildLines m1 L).foldl parseLine s) ∧
      (hasHeaderSec L imageSecName →
        ∀ k ∈ keysOf m1,
          (getEntry ((rebuildLines m1 L).foldl parseLine s).skills k).image.isSome = true) ∧
      (hasHeaderSec L colorSecName →
        ∀ k ∈ keysOf m1, optTruthy (getEntry m1 k).color = true →
          (getEntry ((rebuildLines m1 L).foldl parseLine s).skills k).color.isSome = true ∧
          (optTruthy (getEntry m1 k).comment = true →
            (getEntry ((rebuildLines m1 L).foldl parseLine s).skills k).comment.isSome
              = true)) := by
  intro L
  induction L using rebuildLines.induct m1 with
  | case1 =>
    intro hK s hEK hHH
    rw [rebuildLines]
    refine ⟨hEK, ?_, ?_⟩
    · rintro ⟨l, hl, -, -⟩
      exact absurd hl (List.not_mem_nil l)
    · rintro ⟨l, hl, -, -⟩
      exact absurd hl (List.not_mem_nil l)
  | case2 line rest hh hsecl ih =>
    intro hK s hEK hHH
    have hsecl' : some (secOf line) = some imageSecName := by rw [hsecl]
    rw [rebuildLines, if_pos hh, if_pos hsecl, imageBlock_eq, List.foldl_cons,
      parseLine_header s line hh, List.foldl_append]
    have hshsec : ({ s with sec := some (secOf line), lastComment := none } : PState).sec
        = some imageSecName := hsecl'
    have hmemsids : ∀ x ∈ skill_ids m1, x ∈ keysOf m1 := fun x hx => mem_skill_ids.mp hx
    obtain ⟨hb_sec, hb_mono, hb_set, hb_cc, hb_unt, hb_origin⟩ :=
      foldl_imageEntriesOf m1 hGM (skill_ids m1) hmemsids
        ({ s with sec := some (secOf line), lastComment := none }) hshsec
    obtain ⟨hK1, hI1, hC1, hM1⟩ := hEK
    have hEK2 : entriesKnown m1 ((imageEntriesOf m1 (skill_ids m1)).foldl parseLine
        ({ s with sec := some (secOf line), lastComment := none })) := by
      refine ⟨?_, ?_, ?_, ?_⟩
      · intro k hk2
        rcases hb_origin k hk2 with h | h
        · exact hK1 k h
        · exact mem_skill_ids.mp h
      · intro k
        by_cases hks : k ∈ skill_ids m1
        · right
          exact (hb_set k hks).2
        · rw [hb_unt k hks]
          exact hI1 k
      · intro k
        rw [(hb_cc k).1]
        exact hC1 k
      · intro k
        rw [(hb_cc k).2]
        exact hM1 k
    have hRshape : rest.dropWhile (fun l => !(isHeader l)) = [] ∨
        ∃ h0 t0, rest.dropWhile (fun l => !(isHeader l)) = h0 :: t0 ∧
          isHeader h0 = true := by
      cases hdw : rest.dropWhile (fun l => !(isHeader l)) with
      | nil => exact Or.inl rfl
      | cons h0 t0 =>
        refine Or.inr ⟨h0, t0, rfl, ?_⟩
        have := dropWhile_head_false rest hdw
        simpa using this
    have hmemR : ∀ l ∈ rest, isHeader l = true →
        l ∈ rest.dropWhile (fun l => !(isHeader l)) := by
      intro l hl hisH
      have hBR := List.takeWhile_append_dropWhile (fun l => !(isHeader l)) rest
      rw [← hBR] at hl
      rcases List.mem_append.mp hl with h | h
      · have := List.mem_takeWhile_imp h
        rw [hisH] at this
        exact absurd this (by decide)
      · exact h
    obtain ⟨ihEK, ihImg, ihCol⟩ :=
      ih (fun l hl => hK l (List.mem_cons_of_mem line
          ((List.dropWhile_suffix _).sublist.subset hl)))
        _ hEK2 (fun _ => hRshape)
    refine ⟨ihEK, ?_, ?_⟩
    · intro _ k hk
      have himgS : (getEntry ((imageEntriesOf m1 (skill_ids m1)).foldl parseLine
          ({ s with sec := some (secOf line), lastComment := none })).skills k).image.isSome
          = true := by
        rw [(hb_set k (mem_skill_ids.mpr hk)).2]
        obtain ⟨s0, hs0, -, -, -⟩ := (goodMap_getEntry hGM hk).2.1
        rw [hs0]
        rfl
      exact foldl_image_isSome_mono _ _ himgS
    · rintro ⟨l, hl, hlH, hlS⟩ k hk htr
      rcases List.mem_cons.mp hl with rfl | hlrest
      · rw [hsecl] at hlS
        exact absurd hlS (by decide)
      · exact ihCol ⟨l, hmemR l hlrest hlH, hlH, hlS⟩ k hk htr
  | case3 line rest hh hsec1 hsecl ih =>
    intro hK s hEK hHH
    have hsecl' : some (secOf line) = some colorSecName := by rw [hsecl]
    rw [rebuildLines, if_pos hh, if_neg hsec1, if_pos hsecl, colorBlock_eq, List.foldl_cons,
      parseLine_header s line hh, List.foldl_append]
    have hshsec : ({ s with sec := some (secOf line), lastComment := none } : PState).sec
        = some colorSecName := hsecl'
    have hmemsids : ∀ x ∈ skill_ids m1, x ∈ keysOf m1 := fun x hx => mem_skill_ids.mp hx
    obtain ⟨hb_sec, hb_lc, hb_mono, hb_set, hb_unt, hb_img, hb_origin⟩ :=
      foldl_colorEntriesOf m1 hGM (skill_ids m1) hmemsids
        ({ s with sec := some (secOf line), lastComment := none }) hshsec rfl
    obtain ⟨hK1, hI1, hC1, hM1⟩ := hEK
    have hEK2 : entriesKnown m1 ((colorEntriesOf m1 (skill_ids m1)).foldl parseLine
        ({ s with sec := some (secOf line), lastComment := none })) := by
      refine ⟨?_, ?_, ?_, ?_⟩
      · intro k hk2
        rcases hb_origin k hk2 with h | h
        · exact hK1 k h
        · exact mem_skill_ids.mp h
      · intro k
        rw [hb_img k]
        exact hI1 k
      · intro k
        by_cases hks : k ∈ skill_ids m1
        · by_cases htr : optTruthy (getEntry m1 k).color = true
          · right
            exact (hb_set k hks htr).2.1
          · rw [hb_unt k (Or.inr htr)]
            exact hC1 k
        · rw [hb_unt k (Or.inl hks)]
          exact hC1 k
      · intro k
        by_cases hks : k ∈ skill_ids m1
        · by_cases htr : optTruthy (getEntry m1 k).color = true
          · rw [(hb_set k hks htr).2.2]
            by_cases hcm : optTruthy (getEntry m1 k).comment = true
            · right
              rw [if_pos hcm]
            · rw [if_neg hcm]
              exact hM1 k
          · rw [hb_unt k (Or.inr htr)]
            exact hM1 k
        · rw [hb_unt k (Or.inl hks)]
          exact hM1 k
    have hRshape : rest.dropWhile (fun l => !(isHeader l)) = [] ∨
        ∃ h0 t0, rest.dropWhile (fun l => !(isHeader l)) = h0 :: t0 ∧
          isHeader h0 = true := by
      cases hdw : rest.dropWhile (fun l => !(isHeader l)) with
      | nil => exact Or.inl rfl
      | cons h0 t0 =>
        refine Or.inr ⟨h0, t0, rfl, ?_⟩
        have := dropWhile_head_false rest hdw
        simpa using this
    have hmemR : ∀ l ∈ rest, isHeader l = true →
        l ∈ rest.dropWhile (fun l => !(isHeader l)) := by
      intro l hl hisH
      have hBR := List.takeWhile_append_dropWhile (fun l => !(isHeader l)) rest
      rw [← hBR] at hl
      rcases List.mem_append.mp hl with h | h
      · have := List.mem_takeWhile_imp h
        rw [hisH] at this
        exact absurd this (by decide)
      · exact h
    obtain ⟨ihEK, ihImg, ihCol⟩ :=
      ih (fun l hl => hK l (List.mem_cons_of_mem line
          ((List.dropWhile_suffix _).sublist.subset hl)))
        _ hEK2 (fun _ => hRshape)
    refine ⟨ihEK, ?_, ?_⟩
    · rintro ⟨l, hl, hlH, hlS⟩ k hk
      rcases List.mem_cons.mp hl with rfl | hlrest
      · rw [hsecl] at hlS
        exact absurd hlS (by decide)
      · exact ihImg ⟨l, hmemR l hlrest hlH, hlH, hlS⟩ k hk
    · intro _ k hk htr
      have hcS : (getEntry ((colorEntriesOf m1 (skill_ids m1)).foldl parseLine
          ({ s with sec := some (secOf line), lastComment := none })).skills k).color.isSome
          = true := by
        rw [(hb_set k (mem_skill_ids.mpr hk) htr).2.1]
        exact optTruthy_isSome htr
      refine ⟨foldl_color_isSome_mono _ _ hcS, ?_⟩
      intro hcm
      have hmS : (getEntry ((colorEntriesOf m1 (skill_ids m1)).foldl parseLine
          ({ s with sec := some (secOf line), lastComment := none })).skills k).comment.isSome
          = true := by
        rw [(hb_set k (mem_skill_ids.mpr hk) htr).2.2, if_pos hcm]
        exact optTruthy_isSome hcm
      exact foldl_comment_isSome_mono _ _ hmS
  | case4 line rest hh hsec1 hsec2 ih =>
    intro hK s hEK hHH
    rw [rebuildLines, if_pos hh, if_neg hsec1, if_neg hsec2, List.foldl_cons,
      parseLine_header s line hh]
    have hHH' : (({ s with sec := some (secOf line), lastComment := none } : PState).sec
          = some imageSecName ∨
        ({ s with sec := some (secOf line), lastComment := none } : PState).sec
          = some colorSecName) →
        (rest = [] ∨ ∃ h0 t0, rest = h0 :: t0 ∧ isHeader h0 = true) := by
      intro hmem
      rcases hmem with h | h
      · exact absurd (Option.some.inj h) hsec1
      · exact absurd (Option.some.inj h) hsec2
    obtain ⟨ihEK, ihImg, ihCol⟩ :=
      ih (fun l hl => hK l (List.mem_cons_of_mem line hl))
        ({ s with sec := some (secOf line), lastComment := none }) hEK hHH'
    refine ⟨ihEK, ?_, ?_⟩
    · rintro ⟨l, hl, hlH, hlS⟩ k hk
      rcases List.mem_cons.mp hl with rfl | hlrest
      · exact absurd hlS hsec1
      · exact ihImg ⟨l, hlrest, hlH, hlS⟩ k hk
    · rintro ⟨l, hl, hlH, hlS⟩ k hk htr
      rcases List.mem_cons.mp hl with rfl | hlrest
      · exact absurd hlS hsec2
      · exact ihCol ⟨l, hlrest, hlH, hlS⟩ k hk htr
  | case5 line rest hh ih =>
    intro hK s hEK hHH
    have hh' : isHeader line = false := Bool.eq_false_iff.mpr hh
    rw [rebuildLines, if_neg (by simp [hh]), List.foldl_cons]
    have hsnm : ¬(s.sec = some imageSecName ∨ s.sec = some colorSecName) := by
      intro hmem
      rcases hHH hmem with h0 | ⟨h0, t0, heq, hisH⟩
      · exact List.noConfusion h0
      · have hle : line = h0 := (List.cons.inj heq).1
        rw [← hle] at hisH
        exact hh hisH
    have hEK' : entriesKnown m1 (parseLine s line) := by
      rcases parseLine_cases s line with ⟨h1, -⟩ | ⟨-, -, he⟩ | ⟨-, -, k0, v0, hkv, he⟩ |
        ⟨-, -, -, he⟩
      · exact absurd h1 hh
      · rw [he]
        exact hEK
      · rw [he]
        have hunm := skillStep_getEntry_unmanaged s k0 v0
          (fun h => hsnm (Or.inr h)) (fun h => hsnm (Or.inl h))
        obtain ⟨hK1, hI1, hC1, hM1⟩ := hEK
        refine ⟨?_, ?_, ?_, ?_⟩
        · intro k hk2
          rcases skillStep_keys_origin s k0 v0 hk2 with h | h
          · exact hK1 k h
          · subst h
            exact hK line (List.mem_cons_self line rest) k v0 hkv
        · intro k
          rw [hunm k]
          exact hI1 k
        · intro k
          rw [hunm k]
          exact hC1 k
        · intro k
          rw [hunm k]
          exact hM1 k
      · rw [he]
        exact hEK
    have hHH' : ((parseLine s line).sec = some imageSecName ∨
        (parseLine s line).sec = some colorSecName) →
        (rest = [] ∨ ∃ h0 t0, rest = h0 :: t0 ∧ isHeader h0 = true) := by
      intro hmem
      rw [parseLine_sec_not_header s line hh'] at hmem
      exact absurd hmem hsnm
    obtain ⟨ihEK, ihImg, ihCol⟩ :=
      ih (fun l hl => hK l (List.mem_cons_of_mem line hl)) _ hEK' hHH'
    refine ⟨ihEK, ?_, ?_⟩
    · rintro ⟨l, hl, hlH, hlS⟩
      rcases List.mem_cons.mp hl with rfl | hl2
      · exact absurd hlH hh
      · exact ihImg ⟨l, hl2, hlH, hlS⟩
    · rintro ⟨l, hl, hlH, hlS⟩
      rcases List.mem_cons.mp hl with rfl | hl2
      · exact absurd hlH hh
      · exact ihCol ⟨l, hl2, hlH, hlS⟩

theorem noNL_append {a b : Str} (ha : noNL a) (hb : noNL b) : noNL (a ++ b) := by
  intro h
  rcases List.mem_append.mp h with h | h
  · exact ha h
  · exact hb h

theorem noNL_cons {c : Char} {s : Str} (hc : ¬ c = '\n') (hs : noNL s) : noNL (c :: s) := by
  intro h
  rcases List.mem_cons.mp h with h | h
  · exact hc h.symm
  · exact hs h

/-- Facts about each line emitted for one image-section entry: never a
header, newline-free, and parsed (if at all) as an assignment to `sid`. -/
theorem entryImageLines_facts (m1 : Skills) (hGM : goodMap m1) {sid : Str}
    (hsid : sid ∈ keysOf m1) :
    ∀ x ∈ entryImageLines sid (getEntry m1 sid),
      isHeader x = false ∧ noNL x ∧
        (skillAssignParts x = none ∨ ∃ v, skillAssignParts x = some (sid, v)) := by
  intro x hx
  obtain ⟨hk, hgd⟩ := goodMap_getEntry hGM hsid
  obtain ⟨s, hs1, hs2, hs3, hs4⟩ := hgd.1
  have hf : fmtOptStr (some s) = s := rfl
  have hline : sid ++ " = ".data ++ fmtOptStr (getEntry m1 sid).image =
      sid ++ ' ' :: '=' :: ' ' :: s := by
    rw [hs1, hf, image_line_eq]
  rw [entryImageLines] at hx
  rcases List.mem_append.mp hx with hx1 | hx2
  · rcases List.mem_append.mp hx1 with hxc | hxl
    · by_cases hcm : optTruthy (getEntry m1 sid).comment = true
      · rw [if_pos hcm] at hxc
        rw [List.mem_singleton] at hxc
        subst hxc
        rcases hgd.2.1 with hnone | ⟨c, hc1, hc2, hc3, -⟩
        · rw [hnone] at hcm
          exact absurd hcm (by decide)
        · rw [hc1]
          exact ⟨(isCommentLine_facts hc2).1, hc3, Or.inl (skillAssignParts_comment hc2)⟩
      · rw [if_neg hcm] at hxc
        exact absurd hxc (List.not_mem_nil x)
    · rw [List.mem_singleton] at hxl
      subst hxl
      rw [hline]
      obtain ⟨hassign, hnh, -⟩ := skillAssign_image_line hk hs2 hs3
      refine ⟨hnh, ?_, Or.inr ⟨s, hassign⟩⟩
      exact noNL_append hk.2.2.2.1
        (noNL_cons (by decide) (noNL_cons (by decide) (noNL_cons (by decide) hs4)))
  · rw [List.mem_singleton] at hx2
    subst hx2
    exact ⟨by decide, fun h => absurd h (List.not_mem_nil _), Or.inl rfl⟩

/-- The analogous facts for one color-section entry. -/
theorem entryColorLines_facts (m1 : Skills) (hGM : goodMap m1) {sid : Str}
    (hsid : sid ∈ keysOf m1) :
    ∀ x ∈ entryColorLines sid (getEntry m1 sid),
      isHeader x = false ∧ noNL x ∧
        (skillAssignParts x = none ∨ ∃ v, skillAssignParts x = some (sid, v)) := by
  intro x hx
  obtain ⟨hk, hgd⟩ := goodMap_getEntry hGM hsid
  rw [entryColorLines] at hx
  by_cases hct : optTruthy (getEntry m1 sid).color = true
  · rw [if_pos hct] at hx
    obtain ⟨v, hv1, hv2, hv3, hv4⟩ : ∃ v, (getEntry m1 sid).color = some v ∧
        v ≠ [] ∧ stripInv v ∧ noNL v := by
      rcases hgd.2.2 with hnone | h
      · rw [hnone] at hct
        exact absurd hct (by decide)
      · exact h
    have hf : fmtOptStr (some v) = v := rfl
    have hline : sid ++ "=".data ++ fmtOptStr (getEntry m1 sid).color =
        sid ++ '=' :: v := by
      rw [hv1, hf, color_line_eq]
    rcases List.mem_append.mp hx with hx1 | hx2
    · rcases List.mem_append.mp hx1 with hxc | hxl
      · by_cases hcm : optTruthy (getEntry m1 sid).comment = true
        · rw [if_pos hcm] at hxc
          rw [List.mem_singleton] at hxc
          subst hxc
          rcases hgd.2.1 with hnone | ⟨c, hc1, hc2, hc3, -⟩
          · rw [hnone] at hcm
            exact absurd hcm (by decide)
          · rw [hc1]
            exact ⟨(isCommentLine_facts hc2).1, hc3, Or.inl (skillAssignParts_comment hc2)⟩
        · rw [if_neg hcm] at hxc
          exact absurd hxc (List.not_mem_nil x)
      · rw [List.mem_singleton] at hxl
        subst hxl
        rw [hline]
        obtain ⟨hassign, hnh, -⟩ := skillAssign_color_line hk hv2 hv3
        refine ⟨hnh, ?_, Or.inr ⟨v, hassign⟩⟩
        exact noNL_append hk.2.2.2.1 (noNL_cons (by decide) hv4)
    · rw [List.mem_singleton] at hx2
      subst hx2
      exact ⟨by decide, fun h => absurd h (List.not_mem_nil _), Or.inl rfl⟩
  · rw [if_neg hct] at hx
    exact absurd hx (List.not_mem_nil x)

/-- The facts above, lifted to the whole regenerated blocks. -/
theorem imageBlock_facts (m1 : Skills) (hGM : goodMap m1) :
    ∀ x ∈ imageBlock m1,
      isHeader x = false ∧ noNL x ∧
        (skillAssignParts x = none ∨
          ∃ sid ∈ keysOf m1, ∃ v, skillAssignParts x = some (sid, v)) := by
  intro x hx
  rw [imageBlock] at hx
  obtain ⟨sid, hsid, hxe⟩ := List.mem_flatMap.mp hx
  obtain ⟨h1, h2, h3⟩ :=
    entryImageLines_facts m1 hGM (mem_skill_ids.mp hsid) x hxe
  refine ⟨h1, h2, ?_⟩
  rcases h3 with h | ⟨v, hv⟩
  · exact Or.inl h
  · exact Or.inr ⟨sid, mem_skill_ids.mp hsid, v, hv⟩

theorem colorBlock_facts (m1 : Skills) (hGM : goodMap m1) :
    ∀ x ∈ colorBlock m1,
      isHeader x = false ∧ noNL x ∧
        (skillAssignParts x = none ∨
          ∃ sid ∈ keysOf m1, ∃ v, skillAssignParts x = some (sid, v)) := by
  intro x hx
  rw [colorBlock] at hx
  obtain ⟨sid, hsid, hxe⟩ := List.mem_flatMap.mp hx
  obtain ⟨h1, h2, h3⟩ :=
    entryColorLines_facts m1 hGM (mem_skill_ids.mp hsid) x hxe
  refine ⟨h1, h2, ?_⟩
  rcases h3 with h | ⟨v, hv⟩
  · exact Or.inl h
  · exact Or.inr ⟨sid, mem_skill_ids.mp hsid, v, hv⟩

/-- Every line of the rebuilt output is an original line or a block line. -/
theorem rebuildLines_mem (m : Skills) (L : List Str) :
    ∀ x ∈ rebuildLines m L, x ∈ L ∨ x ∈ imageBlock m ∨ x ∈ colorBlock m := by
  induction L using rebuildLines.induct m with
  | case1 =>
    rw [rebuildLines]
    intro x hx
    exact absurd hx (List.not_mem_nil x)
  | case2 line rest hh hsecl ih =>
    rw [rebuildLines, if_pos hh, if_pos hsecl]
    intro x hx
    rcases List.mem_cons.mp hx with rfl | hx
    · exact Or.inl (List.mem_cons_self _ _)
    · rcases List.mem_append.mp hx with hx | hx
      · exact Or.inr (Or.inl hx)
      · rcases ih x hx with h | h
        · exact Or.inl (List.mem_cons_of_mem _ ((List.dropWhile_suffix _).sublist.subset h))
        · exact Or.inr h
  | case3 line rest hh hsec1 hsecl ih =>
    rw [rebuildLines, if_pos hh, if_neg hsec1, if_pos hsecl]
    intro x hx
    rcases List.mem_cons.mp hx with rfl | hx
    · exact Or.inl (List.mem_cons_self _ _)
    · rcases List.mem_append.mp hx with hx | hx
      · exact Or.inr (Or.inr hx)
      · rcases ih x hx with h | h
        · exact Or.inl (List.mem_cons_of_mem _ ((List.dropWhile_suffix _).sublist.subset h))
        · exact Or.inr h
  | case4 line rest hh hsec1 hsec2 ih =>
    rw [rebuildLines, if_pos hh, if_neg hsec1, if_neg hsec2]
    intro x hx
    rcases List.mem_cons.mp hx with rfl | hx
    · exact Or.inl (List.mem_cons_self _ _)
    · rcases ih x hx with h | h
      · exact Or.inl (List.mem_cons_of_mem _ h)
      · exact Or.inr h
  | case5 line rest hh ih =>
    rw [rebuildLines, if_neg (by simp [hh])]
    intro x hx
    rcases List.mem_cons.mp hx with rfl | hx
    · exact Or.inl (List.mem_cons_self _ _)
    · rcases ih x hx with h | h
      · exact Or.inl (List.mem_cons_of_mem _ h)
      · exact Or.inr h

theorem flatMap_congr {α β : Type} {f g : α → List β} :
    ∀ l : List α, (∀ a ∈ l, f a = g a) → l.flatMap f = l.flatMap g := by
  intro l
  induction l with
  | nil => intro _; rfl
  | cons a t ih =>
    intro hall
    rw [List.flatMap_cons, List.flatMap_cons, hall a (List.mem_cons_self a t),
      ih (fun x hx => hall x (List.mem_cons_of_mem a hx))]

theorem dropWhile_append_all {α : Type} {p : α → Bool} :
    ∀ (l1 l2 : List α), (∀ a ∈ l1, p a = true) →
      (l1 ++ l2).dropWhile p = l2.dropWhile p := by
  intro l1
  induction l1 with
  | nil => intro l2 _; rfl
  | cons a t ih =>
    intro l2 hall
    rw [List.cons_append, List.dropWhile_cons, if_pos (hall a (List.mem_cons_self a t)),
      ih l2 (fun x hx => hall x (List.mem_cons_of_mem a hx))]

theorem rebuildLines_cons (m : Skills) (h : Str) (t : List Str) :
    ∃ t', rebuildLines m (h :: t) = h :: t' := by
  rw [rebuildLines]
  by_cases h1 : isHeader h = true
  · rw [if_pos h1]
    by_cases h2 : secOf h = imageSecName
    · rw [if_pos h2]
      exact ⟨_, rfl⟩
    · rw [if_neg h2]
      by_cases h3 : secOf h = colorSecName
      · rw [if_pos h3]
        exact ⟨_, rfl⟩
      · rw [if_neg h3]
        exact ⟨_, rfl⟩
  · rw [if_neg h1]
    exact ⟨_, rfl⟩

/-- The rebuilt text depends on the mapping only through the two blocks. -/
theorem rebuildLines_congr (m m' : Skills) (hib : imageBlock m = imageBlock m')
    (hcb : colorBlock m = colorBlock m') : ∀ L, rebuildLines m L = rebuildLines m' L := by
  intro L
  induction L using rebuildLines.induct m with
  | case1 =>
    rw [rebuildLines]
    rw [rebuildLines]
  | case2 line rest hh hsecl ih =>
    rw [rebuildLines, if_pos hh, if_pos hsecl]
    rw [rebuildLines, if_pos hh, if_pos hsecl]
    rw [hib, ih]
  | case3 line rest hh hsec1 hsecl ih =>
    rw [rebuildLines, if_pos hh, if_neg hsec1, if_pos hsecl]
    rw [rebuildLines, if_pos hh, if_neg hsec1, if_pos hsecl]
    rw [hcb, ih]
  | case4 line rest hh hsec1 hsec2 ih =>
    rw [rebuildLines, if_pos hh, if_neg hsec1, if_neg hsec2]
    rw [rebuildLines, if_pos hh, if_neg hsec1, if_neg hsec2]
    rw [ih]
  | case5 line rest hh ih =>
    rw [rebuildLines, if_neg (by simp [hh])]
    rw [rebuildLines, if_neg (by simp [hh])]
    rw [ih]

/-- Rebuilding its own output again changes nothing: the regenerated
blocks contain no headers, so the skip-to-next-header pass consumes
exactly the block that the rebuild re-emits. -/
theorem rebuildLines_idem (m1 : Skills) (hGM : goodMap m1) :
    ∀ L, rebuildLines m1 (rebuildLines m1 L) = rebuildLines m1 L := by
  intro L
  induction L using rebuildLines.induct m1 with
  | case1 =>
    have h0 : rebuildLines m1 ([] : List Str) = [] := by rw [rebuildLines]
    rw [h0, h0]
  | case2 line rest hh hsecl ih =>
    have hEq : rebuildLines m1 (line :: rest) = line :: (imageBlock m1 ++
        rebuildLines m1 (rest.dropWhile (fun l => !(isHeader l)))) := by
      rw [rebuildLines, if_pos hh, if_pos hsecl]
    rw [hEq]
    rw [rebuildLines, if_pos hh, if_pos hsecl]
    have hdw : (imageBlock m1 ++
        rebuildLines m1 (rest.dropWhile (fun l => !(isHeader l)))).dropWhile
          (fun l => !(isHeader l)) =
        rebuildLines m1 (rest.dropWhile (fun l => !(isHeader l))) := by
      rw [dropWhile_append_all (imageBlock m1)
        (rebuildLines m1 (rest.dropWhile (fun l => !(isHeader l))))
        (fun a ha => by
          have hfa := (imageBlock_facts m1 hGM a ha).1
          simp [hfa])]
      cases hR : rest.dropWhile (fun l => !(isHeader l)) with
      | nil =>
        have h0 : rebuildLines m1 ([] : List Str) = [] := by rw [rebuildLines]
        rw [h0]
        rfl
      | cons h0 t0 =>
        obtain ⟨t', ht'⟩ := rebuildLines_cons m1 h0 t0
        have hH : isHeader h0 = true := by
          have := dropWhile_head_false rest hR
          simpa using this
        rw [ht', List.dropWhile_cons, if_neg (by simp [hH])]
    rw [hdw, ih]
  | case3 line rest hh hsec1 hsecl ih =>
    have hEq : rebuildLines m1 (line :: rest) = line :: (colorBlock m1 ++
        rebuildLines m1 (rest.dropWhile (fun l => !(isHeader l)))) := by
      rw [rebuildLines, if_pos hh, if_neg hsec1, if_pos hsecl]
    rw [hEq]
    rw [rebuildLines, if_pos hh, if_neg hsec1, if_pos hsecl]
    have hdw : (colorBlock m1 ++
        rebuildLines m1 (rest.dropWhile (fun l => !(isHeader l)))).dropWhile
          (fun l => !(isHeader l)) =
        rebuildLines m1 (rest.dropWhile (fun l => !(isHeader l))) := by
      rw [dropWhile_append_all (colorBlock m1)
        (rebuildLines m1 (rest.dropWhile (fun l => !(isHeader l))))
        (fun a ha => by
          have hfa := (colorBlock_facts m1 hGM a ha).1
          simp [hfa])]
      cases hR : rest.dropWhile (fun l => !(isHeader l)) with
      | nil =>
        have h0 : rebuildLines m1 ([] : List Str) = [] := by rw [rebuildLines]
        rw [h0]
        rfl
      | cons h0 t0 =>
        obtain ⟨t', ht'⟩ := rebuildLines_cons m1 h0 t0
        have hH : isHeader h0 = true := by
          have := dropWhile_head_false rest hR
          simpa using this
        rw [ht', List.dropWhile_cons, if_neg (by simp [hH])]
    rw [hdw, ih]
  | case4 line rest hh hsec1 hsec2 ih =>
    have hEq : rebuildLines m1 (line :: rest) = line :: rebuildLines m1 rest := by
      rw [rebuildLines, if_pos hh, if_neg hsec1, if_neg hsec2]
    rw [hEq]
    rw [rebuildLines, if_pos hh, if_neg hsec1, if_neg hsec2, ih]
  | case5 line rest hh ih =>
    have hEq : rebuildLines m1 (line :: rest) = line :: rebuildLines m1 rest := by
      rw [rebuildLines, if_neg (by simp [hh])]
    rw [hEq]
    rw [rebuildLines, if_neg (by simp [hh]), ih]

theorem skillData_ext {a b : SkillData} (h1 : a.comment = b.comment)
    (h2 : a.image = b.image) (h3 : a.color = b.color) : a = b := by
  obtain ⟨c, i, co⟩ := a
  obtain ⟨c', i', co'⟩ := b
  obtain rfl : c = c' := h1
  obtain rfl : i = i' := h2
  obtain rfl : co = co' := h3
  rfl

theorem apply_keys (m : Skills) : keysOf (apply_filename_rules m) = keysOf m := by
  rw [keysOf, keysOf, apply_filename_rules, List.map_map]
  rfl

theorem findEntry_map_infer (m : Skills) (k : Str) :
    findEntry (apply_filename_rules m) k =
      (findEntry m k).map (fun d => inferImage k d) := by
  induction m with
  | nil => rfl
  | cons p rest ih =>
    obtain ⟨k', d'⟩ := p
    by_cases hk : k' = k
    · subst hk
      rw [apply_filename_rules, List.map_cons]
      rw [findEntry, if_pos rfl, findEntry, if_pos rfl]
      rfl
    · rw [apply_filename_rules, List.map_cons]
      rw [findEntry, if_neg hk, findEntry, if_neg hk]
      exact ih

theorem apply_getEntry {m : Skills} {k : Str} (hk : k ∈ keysOf m) :
    getEntry (apply_filename_rules m) k = inferImage k (getEntry m k) := by
  rw [← findEntry_isSome_iff] at hk
  obtain ⟨d, hd⟩ := Option.isSome_iff_exists.mp hk
  rw [getEntry, getEntry, findEntry_map_infer, hd]
  rfl

theorem getEntry_mem {m : Skills} {k : Str} (hk : k ∈ keysOf m) :
    (k, getEntry m k) ∈ m := by
  rw [← findEntry_isSome_iff] at hk
  obtain ⟨d, hd⟩ := Option.isSome_iff_exists.mp hk
  have hg : getEntry m k = d := by rw [getEntry, hd]; rfl
  rw [hg]
  exact findEntry_mem hd

theorem inferImage_comment (sid : Str) (d : SkillData) :
    (inferImage sid d).comment = d.comment := by
  rw [inferImage]
  by_cases h1 : optTruthy d.image = true
  · rw [if_pos h1]
  · rw [if_neg h1]
    by_cases h2 : optTruthy d.comment = true ∧ '#' ∈ d.comment.getD []
    · rw [if_pos h2]
    · rw [if_neg h2]

theorem inferImage_color (sid : Str) (d : SkillData) :
    (inferImage sid d).color = d.color := by
  rw [inferImage]
  by_cases h1 : optTruthy d.image = true
  · rw [if_pos h1]
  · rw [if_neg h1]
    by_cases h2 : optTruthy d.comment = true ∧ '#' ∈ d.comment.getD []
    · rw [if_pos h2]
    · rw [if_neg h2]

theorem inferImage_image_congr (sid : Str) {d d' : SkillData}
    (hc : d.comment = d'.comment) (h1 : d.image = none) (h2 : d'.image = none) :
    (inferImage sid d).image = (inferImage sid d').image := by
  rw [inferImage, inferImage, h1, h2, hc]
  rw [if_neg (show ¬ optTruthy (none : Option Str) = true by decide)]
  rw [if_neg (show ¬ optTruthy (none : Option Str) = true by decide)]
  by_cases h3 : optTruthy d'.comment = true ∧ '#' ∈ d'.comment.getD []
  · rw [if_pos h3, if_pos h3]
  · rw [if_neg h3, if_neg h3]

theorem skill_ids_eq_of_keys (m m' : Skills) (hn : (keysOf m).Nodup)
    (hn' : (keysOf m').Nodup) (hiff : ∀ k, k ∈ keysOf m ↔ k ∈ keysOf m') :
    skill_ids m = skill_ids m' := by
  have hperm : (keysOf m).Perm (keysOf m') := (List.perm_ext_iff_of_nodup hn hn').mpr hiff
  have h1 : (skill_ids m).Perm (skill_ids m') :=
    ((List.perm_insertionSort _ (keysOf m)).trans hperm).trans
      (List.perm_insertionSort _ (keysOf m')).symm
  exact List.eq_of_perm_of_sorted h1
    (List.sorted_insertionSort strLeRel (keysOf m))
    (List.sorted_insertionSort strLeRel (keysOf m'))

/-- Parsing the rebuilt text and re-running the filename inference
reproduces the inferred mapping: same sorted id list, same entries. -/
theorem reparse_maps (L : List Str) (mP m1 m2 : Skills)
    (hLnl : ∀ l ∈ L, noNL l)
    (hmP : mP = (L.foldl parseLine initState).skills)
    (hm1 : m1 = apply_filename_rules mP)
    (hm2 : m2 = ((rebuildLines m1 L).foldl parseLine initState).skills)
    (hwfP : ∀ p ∈ mP, p.2.color = none ∨
      ∃ v, p.2.color = some v ∧ specValidStoredColor v = true) :
    skill_ids (apply_filename_rules m2) = skill_ids m1 ∧
    (∀ k, k ∈ keysOf m1 → getEntry (apply_filename_rules m2) k = getEntry m1 k) := by
  subst hmP
  subst hm1
  subst hm2
  set mPt := (L.foldl parseLine initState).skills with hmPt
  set m1t := apply_filename_rules mPt with hm1t
  set m2t := ((rebuildLines m1t L).foldl parseLine initState).skills with hm2t
  have hpg : parseGood mPt := (parse_stGood L initState hLnl stGood_init).1
  have hGM : goodMap m1t := goodMap_of_infer _ hpg (fun p hp => by
    rcases hwfP p hp with h | ⟨v, hv, hvd⟩
    · exact Or.inl h
    · exact Or.inr ⟨v, hv, specValidStoredColor_ne_nil hvd⟩)
  have hkeys : keysOf m1t = keysOf mPt := apply_keys mPt
  have hHK : ∀ l ∈ L, ∀ k v, skillAssignParts l = some (k, v) → k ∈ keysOf m1t := by
    intro l hl k v hkv
    rw [hkeys]
    exact foldl_keys_complete L initState l hl k v hkv
  have hEK0 : entriesKnown m1t initState :=
    ⟨fun k hk => absurd hk (List.not_mem_nil k), fun k => Or.inl rfl, fun k => Or.inl rfl,
      fun k => Or.inl rfl⟩
  have hHH0 : (initState.sec = some imageSecName ∨ initState.sec = some colorSecName) →
      (L = [] ∨ ∃ h0 t0, L = h0 :: t0 ∧ isHeader h0 = true) := by
    intro hmem
    rcases hmem with h | h
    · exact Option.noConfusion h
    · exact Option.noConfusion h
  obtain ⟨hEKf, hImgf, hColf⟩ := reparse_main m1t hGM L hHK initState hEK0 hHH0
  have htruthy : ∀ k, k ∈ keysOf mPt → (getEntry mPt k).color.isSome = true →
      optTruthy (getEntry m1t k).color = true := by
    intro k hk hsome
    rw [hm1t, apply_getEntry hk, inferImage_color]
    obtain ⟨v, hv⟩ := Option.isSome_iff_exists.mp hsome
    rcases hwfP (k, getEntry mPt k) (getEntry_mem hk) with h | ⟨v', hv', hvd⟩
    · have h' : (getEntry mPt k).color = none := h
      rw [h'] at hv
      exact Option.noConfusion hv
    · have hv'' : (getEntry mPt k).color = some v' := hv'
      rw [hv'']
      have hne := specValidStoredColor_ne_nil hvd
      cases v' with
      | nil => exact absurd rfl hne
      | cons a t => rfl
  have hsup : ∀ k, k ∈ keysOf m1t → k ∈ keysOf m2t :=
    fun k hk => reparse_keys_sup m1t mPt hGM (fun k0 hk0 => by rw [hkeys]; exact hk0)
      htruthy L initState initState rfl rfl (fun k0 h0 => h0) k (by rw [← hkeys]; exact hk)
  have hsub : ∀ k, k ∈ keysOf m2t → k ∈ keysOf m1t := hEKf.1
  have hnd1 : (keysOf m1t).Nodup := hGM.1
  have hnd2 : (keysOf m2t).Nodup :=
    parse_keys_nodup (rebuildLines m1t L) initState List.nodup_nil
  refine ⟨?_, ?_⟩
  · apply skill_ids_eq_of_keys
    · rw [apply_keys]
      exact hnd2
    · exact hnd1
    · intro k
      rw [apply_keys]
      exact ⟨fun h => hsub k h, fun h => hsup k h⟩
  · intro k hk
    have hkP : k ∈ keysOf mPt := by rw [← hkeys]; exact hk
    have hk2 : k ∈ keysOf m2t := hsup k hk
    rw [apply_getEntry hk2, hm1t, apply_getEntry hkP]
    have hcolor : (getEntry m2t k).color = (getEntry mPt k).color ∧
        (getEntry m2t k).comment = (getEntry mPt k).comment := by
      have hc1P : (getEntry m1t k).color = (getEntry mPt k).color := by
        rw [hm1t, apply_getEntry hkP, inferImage_color]
      have hm1P : (getEntry m1t k).comment = (getEntry mPt k).comment := by
        rw [hm1t, apply_getEntry hkP, inferImage_comment]
      by_cases hHC : hasHeaderSec L colorSecName
      · by_cases htr : optTruthy (getEntry m1t k).color = true
        · obtain ⟨hcs, hmsf⟩ := hColf hHC k hk htr
          have hc2 : (getEntry m2t k).color = (getEntry m1t k).color := by
            rcases hEKf.2.2.1 k with h | h
            · rw [h] at hcs
              exact absurd hcs (by decide)
            · exact h
          refine ⟨by rw [hc2, hc1P], ?_⟩
          by_cases hcm : optTruthy (getEntry m1t k).comment = true
          · have hms := hmsf hcm
            have hm2c : (getEntry m2t k).comment = (getEntry m1t k).comment := by
              rcases hEKf.2.2.2 k with h | h
              · rw [h] at hms
                exact absurd hms (by decide)
              · exact h
            rw [hm2c, hm1P]
          · have hm1n : (getEntry m1t k).comment = none := by
              rcases (goodMap_getEntry hGM hk).2.2.1 with h | ⟨c, hc1, hc2', -, -⟩
              · exact h
              · exfalso
                apply hcm
                rw [hc1]
                have hcne : c ≠ [] := (isCommentLine_facts hc2').2
                cases c with
                | nil => exact absurd rfl hcne
                | cons a t => rfl
            have hm2n : (getEntry m2t k).comment = none := by
              rcases hEKf.2.2.2 k with h | h
              · exact h
              · rw [h, hm1n]
            rw [hm2n, ← hm1P, hm1n]
        · have hc1n : (getEntry m1t k).color = none := by
            rcases (goodMap_getEntry hGM hk).2.2.2 with h | ⟨v, hv1, hv2, -, -⟩
            · exact h
            · exfalso
              apply htr
              rw [hv1]
              cases v with
              | nil => exact absurd rfl hv2
              | cons a t => rfl
          have hm1n : (getEntry m1t k).comment = none := by
            rcases (goodMap_getEntry hGM hk).2.2.1 with h | ⟨c, hc1, -, -, hctr⟩
            · exact h
            · rw [hc1n] at hctr
              exact absurd hctr (by decide)
          have hc2n : (getEntry m2t k).color = none := by
            rcases hEKf.2.2.1 k with h | h
            · exact h
            · rw [h, hc1n]
          have hm2n : (getEntry m2t k).comment = none := by
            rcases hEKf.2.2.2 k with h | h
            · exact h
            · rw [h, hm1n]
          exact ⟨by rw [hc2n, ← hc1P, hc1n], by rw [hm2n, ← hm1P, hm1n]⟩
      · have hnoc : ∀ l ∈ L, ¬(isHeader l = true ∧ secOf l = colorSecName) :=
          fun l hl hcon => hHC ⟨l, hl, hcon.1, hcon.2⟩
        have hPn := (parse_no_color_writes L initState hnoc
          (fun h => Option.noConfusion h)).2
        have hnocN : ∀ l ∈ rebuildLines m1t L,
            ¬(isHeader l = true ∧ secOf l = colorSecName) := by
          intro l hl hcon
          rcases rebuildLines_mem m1t L l hl with h | h | h
          · exact hnoc l h hcon
          · rw [(imageBlock_facts m1t hGM l h).1] at hcon
            exact Bool.noConfusion hcon.1
          · rw [(colorBlock_facts m1t hGM l h).1] at hcon
            exact Bool.noConfusion hcon.1
        have hNn := (parse_no_color_writes (rebuildLines m1t L) initState hnocN
          (fun h => Option.noConfusion h)).2
        constructor
        · exact ((hNn k).1.trans rfl).trans (((hPn k).1.trans rfl).symm)
        · exact ((hNn k).2.trans rfl).trans (((hPn k).2.trans rfl).symm)
    by_cases hHI : hasHeaderSec L imageSecName
    · have hi2 : (getEntry m2t k).image = (getEntry m1t k).image := by
        have his := hImgf hHI k hk
        rcases hEKf.2.1 k with h | h
        · rw [h] at his
          exact absurd his (by decide)
        · exact h
      obtain ⟨s, hs1, hs2, -, -⟩ := (goodMap_getEntry hGM hk).2.1
      have htrimg2 : optTruthy (getEntry m2t k).image = true := by
        rw [hi2, hs1]
        cases s with
        | nil => exact absurd rfl hs2
        | cons a t => rfl
      have hinf2 : inferImage k (getEntry m2t k) = getEntry m2t k := by
        rw [inferImage, if_pos htrimg2]
      rw [hinf2, ← apply_getEntry hkP, ← hm1t]
      apply skillData_ext
      · rw [hcolor.2, ← inferImage_comment k (getEntry mPt k), ← apply_getEntry hkP, ← hm1t]
      · exact hi2
      · rw [hcolor.1, ← inferImage_color k (getEntry mPt k), ← apply_getEntry hkP, ← hm1t]
    · have hnoi : ∀ l ∈ L, ¬(isHeader l = true ∧ secOf l = imageSecName) :=
        fun l hl hcon => hHI ⟨l, hl, hcon.1, hcon.2⟩
      have hPn := (parse_no_image_writes L initState hnoi
        (fun h => Option.noConfusion h)).2
      have hnoiN : ∀ l ∈ rebuildLines m1t L,
          ¬(isHeader l = true ∧ secOf l = imageSecName) := by
        intro l hl hcon
        rcases rebuildLines_mem m1t L l hl with h | h | h
        · exact hnoi l h hcon
        · rw [(imageBlock_facts m1t hGM l h).1] at hcon
          exact Bool.noConfusion hcon.1
        · rw [(colorBlock_facts m1t hGM l h).1] at hcon
          exact Bool.noConfusion hcon.1
      have hNn := (parse_no_image_writes (rebuildLines m1t L) initState hnoiN
        (fun h => Option.noConfusion h)).2
      have h2n : (getEntry m2t k).image = none := (hNn k).trans rfl
      have hPnk : (getEntry mPt k).image = none := (hPn k).trans rfl
      apply skillData_ext
      · rw [inferImage_comment, inferImage_comment]
        exact hcolor.2
      · exact inferImage_image_congr k hcolor.2 h2n hPnk
      · rw [inferImage_color, inferImage_color]
        exact hcolor.1

/-- Text-level round trip: once the inferred mapping and rebuilt text of
a pass are named, the second pass reproduces the rebuilt text. -/
theorem passOnce_fixed (text : Str) (L : List Str) (mP m1 m2 : Skills)
    (hL : L = pySplitlines text) (hLne : L ≠ [])
    (hmP : mP = (L.foldl parseLine initState).skills)
    (hm1 : m1 = apply_filename_rules mP)
    (hm2 : m2 = ((rebuildLines m1 L).foldl parseLine initState).skills)
    (hwfP : ∀ p ∈ mP, p.2.color = none ∨
      ∃ v, p.2.color = some v ∧ specValidStoredColor v = true) :
    passOnce (passOnce text) = passOnce text := by
  have hLnl : ∀ l ∈ L, noNL l := by
    rw [hL]
    exact pySplitlines_noNL text
  obtain ⟨hids, hge⟩ := reparse_maps L mP m1 m2 hLnl hmP hm1 hm2 hwfP
  have hpg : parseGood mP := by
    rw [hmP]
    exact (parse_stGood L initState hLnl stGood_init).1
  have hGM : goodMap m1 := by
    rw [hm1]
    refine goodMap_of_infer _ hpg (fun p hp => ?_)
    rcases hwfP p hp with h | ⟨v, hv, hvd⟩
    · exact Or.inl h
    · exact Or.inr ⟨v, hv, specValidStoredColor_ne_nil hvd⟩
  have hpass1 : passOnce text = joinNL (rebuildLines m1 L) ++ ['\n'] := by
    subst hL
    subst hmP
    subst hm1
    rfl
  have hNne : rebuildLines m1 L ≠ [] := rebuildLines_ne_nil m1 L hLne
  have hNnl : ∀ l ∈ rebuildLines m1 L, noNL l := by
    intro l hl
    rcases rebuildLines_mem m1 L l hl with h | h | h
    · exact hLnl l h
    · exact (imageBlock_facts m1 hGM l h).2.1
    · exact (colorBlock_facts m1 hGM l h).2.1
  have hsplit : pySplitlines (joinNL (rebuildLines m1 L) ++ ['\n']) = rebuildLines m1 L :=
    pySplitlines_joinNL _ hNne hNnl
  have hib : imageBlock (apply_filename_rules m2) = imageBlock m1 := by
    rw [imageBlock, imageBlock, hids]
    exact flatMap_congr _ (fun sid hsid => by rw [hge sid (mem_skill_ids.mp hsid)])
  have hcb : colorBlock (apply_filename_rules m2) = colorBlock m1 := by
    rw [colorBlock, colorBlock, hids]
    exact flatMap_congr _ (fun sid hsid => by rw [hge sid (mem_skill_ids.mp hsid)])
  have hX1 : (parseAndInfer (passOnce text)).1 = rebuildLines m1 L := by
    show pySplitlines (passOnce text) = _
    rw [hpass1]
    exact hsplit
  have hX2 : (parseAndInfer (passOnce text)).2 = apply_filename_rules m2 := by
    show apply_filename_rules ((pySplitlines (passOnce text)).foldl parseLine initState).skills
      = _
    rw [hpass1, hsplit, ← hm2]
  have hcalc : passOnce (passOnce text) =
      joinNL (rebuildLines (apply_filename_rules m2) (rebuildLines m1 L)) ++ ['\n'] := by
    rw [passOnce, hX1, hX2, rebuild_ini]
  rw [hcalc, hpass1, rebuildLines_congr (apply_filename_rules m2) m1 hib hcb,
    rebuildLines_idem m1 hGM]

/-- Claim C1: round-trip idempotence of the parse/infer/rebuild cycle.
For any input whose parsed color values are all valid stored colors
(the file-format contract `0xAARRGGBB`), one full pass is a fixed
point: re-parsing the rebuilt output (with filename inference) and
rebuilding again yields the identical text. -/
theorem c1_roundtrip_idempotent (text : Str) (hwf : colorsWellFormed text = true) :
    passOnce (passOnce text) = passOnce text := by
  by_cases hL0 : pySplitlines text = []
  · have hp1 : passOnce text = ['\n'] := by
      show rebuild_ini (parseAndInfer text).1 (parseAndInfer text).2 = ['\n']
      have h1 : (parseAndInfer text).1 = pySplitlines text := rfl
      rw [rebuild_ini, h1, hL0, rebuildLines]
      rfl
    rw [hp1]
    rw [passOnce, rebuild_ini_eval]
    decide
  · refine passOnce_fixed text (pySplitlines text) _ _ _ rfl hL0 rfl rfl rfl ?_
    intro p hp
    rw [colorsWellFormed, List.all_eq_true] at hwf
    have hthis := hwf p hp
    cases hc : p.2.color with
    | none => exact Or.inl rfl
    | some v =>
      rw [hc] at hthis
      exact Or.inr ⟨v, rfl, by simpa using hthis⟩

theorem c1_roundtrip_idempotent_witness :
    colorsWellFormed ("[LGP::CELL_COLOR]\n; #Fireball\nSkill0001=0xFFFF0000\n\n[LGP::CELL_IMAGE]\nSkill0001 = old.bmp\n".data) = true ∧
    passOnce (passOnce ("[LGP::CELL_COLOR]\n; #Fireball\nSkill0001=0xFFFF0000\n\n[LGP::CELL_IMAGE]\nSkill0001 = old.bmp\n".data)) =
      passOnce ("[LGP::CELL_COLOR]\n; #Fireball\nSkill0001=0xFFFF0000\n\n[LGP::CELL_IMAGE]\nSkill0001 = old.bmp\n".data) :=
  ⟨by decide, c1_roundtrip_idempotent _ (by decide)⟩

